import Mathlib

/-!
# Verification of the typed relation-data binding layer

Shallow embedding of `lib/charms/core/relations.py`: the `BaseRelationData`
pydantic base class (serialization, binding/write-through, reading) and the
`parse_relation_data` event-handler decorator.

Python values exchanged through a relation databag are modelled by the
inductive family `PyVal` (with its own list types `PyList`/`PyKVs`, so that
every operation is structurally recursive and kernel-computable); Python
`float` is modelled as a finite decimal number (`Flt`), which is faithful
for the float/str round trips the code relies on (`repr` of a finite float
parses back to the same float); IEEE special values (nan/inf) and binary
rounding play no role in any property checked here.

The external `json` module (used through `json.dumps` / `json.loads`) is
modelled by an executable encoder (`dumpsV`) and recursive-descent parser
(`pVal`) for the JSON text grammar.  The external `yaml` module
(`safe_dump` / `safe_load`) is modelled more coarsely (`yamlDumps` /
`yamlLoads`); no theorem below depends on its internals, only on the fact
that `read`/`serialize` dispatch on the configured backend.
Pydantic's lenient (v1) field validation/coercion is modelled by `validate`.
-/

namespace Relations

/-! ## Decimal digits -/

/-- The character for a single decimal digit `d < 10`. -/
def digitChar (d : Nat) : Char := Char.ofNat (48 + d)

/-- Is the character an ASCII decimal digit? -/
def isDig (c : Char) : Bool := 48 ≤ c.toNat && c.toNat ≤ 57

/-- Numeric value of a decimal digit character. -/
def digVal (c : Char) : Nat := c.toNat - 48

/-- Big-endian decimal value of a list of digit characters. -/
def decVal (ds : List Char) : Nat := ds.foldl (fun a c => 10 * a + digVal c) 0

/-- Little-endian decimal digit characters of `n` (`[]` for `0`); the fuel
(any `fuel ≥ n`) only drives termination. -/
def natCharsAux : Nat → Nat → List Char
  | 0, _ => []
  | fuel + 1, n => if n = 0 then [] else digitChar (n % 10) :: natCharsAux fuel (n / 10)

/-- Decimal digit characters (big-endian) of a natural number, as produced
by Python's `str`. -/
def natChars (n : Nat) : List Char :=
  if n = 0 then ['0'] else (natCharsAux n n).reverse

/-- Decimal string of an integer, as produced by Python's `str` on `int`. -/
def intChars (n : Int) : List Char :=
  if n < 0 then '-' :: natChars n.natAbs else natChars n.natAbs

def intStr (n : Int) : String := ⟨intChars n⟩

/-! ## Finite-decimal model of Python floats

A Python float is modelled by the finite decimal `m / 10^e`.  The
representation is canonical when the fractional part does not end in `0`
(`e ≠ 0 → ¬ 10 ∣ m`); `str` of a finite Python float is exactly such a
shortest decimal, and every float value occurring in the properties below is
a canonical `Flt`. -/

structure Flt where
  m : Int
  e : Nat
  deriving DecidableEq, Repr

/-- Canonicity of the decimal representation: no trailing zero in the
fractional part.  (`e = 0` means an integral float, printed as `m.0`.) -/
def Flt.canon (f : Flt) : Bool := f.e == 0 || decide (f.m % 10 ≠ 0)

/-- Strip trailing fractional zeros: the canonical form of `m / 10^e`. -/
def canonFlt (m : Int) : Nat → Flt
  | 0 => ⟨m, 0⟩
  | e + 1 => if m % 10 = 0 then canonFlt (m / 10) e else ⟨m, e + 1⟩

/-- Exactly `e` big-endian digit characters of `k < 10^e` (the zero-padded
fractional part). -/
def fracChars : Nat → Nat → List Char
  | 0, _ => []
  | e + 1, k => digitChar (k / 10 ^ e) :: fracChars e (k % 10 ^ e)

/-- Decimal notation of a finite float, as produced by Python's `str`
(always contains a decimal point; the model does not use scientific
notation). -/
def fltChars (f : Flt) : List Char :=
  let sign : List Char := if f.m < 0 then ['-'] else []
  let n := f.m.natAbs
  if f.e = 0 then sign ++ natChars n ++ ['.', '0']
  else sign ++ natChars (n / 10 ^ f.e) ++ '.' :: fracChars f.e (n % 10 ^ f.e)

def fltStr (f : Flt) : String := ⟨fltChars f⟩

/-- Truncation toward zero, Python's `int(float)`. -/
def fltTrunc (f : Flt) : Int := f.m.tdiv (10 ^ f.e)

/-! ## Python values and declared field types

One mutual inductive family: a Python runtime value (restricted to the
shapes that can reach the binding layer), lists and string-keyed maps of
such values, and the declared field annotations of a record class
(a `BaseRelationData` subclass), with per-field optional defaults.
`vModel` is a pydantic `BaseModel` instance (its field map); `vOther`
stands for a value of any type outside the serializable set, tagged with
its Python type name.  `tAny` is `typing.Any` (pydantic accepts any value
unchanged). -/

mutual

inductive PyVal where
  | vStr (s : String)
  | vInt (n : Int)
  | vFloat (f : Flt)
  | vBool (b : Bool)
  | vNone
  | vList (elts : PyList)
  | vDict (entries : PyKVs)
  | vModel (fields : PyKVs)
  | vOther (tyName : String)

inductive PyList where
  | nil
  | cons (v : PyVal) (rest : PyList)

inductive PyKVs where
  | nil
  | cons (k : String) (v : PyVal) (rest : PyKVs)

inductive OptPy where
  | none
  | some (v : PyVal)

inductive FieldType where
  | tStr
  | tInt
  | tFloat
  | tAny
  | tModel (sub : SchemaL)
  | tList (elt : FieldType)
  | tDict (val : FieldType)

inductive SchemaL where
  | nil
  | cons (name : String) (t : FieldType) (d : OptPy) (rest : SchemaL)

end

/-- A declared record type: its fields in declaration order. -/
abbrev Schema := SchemaL

/-- Literal-building convenience: a `PyList` from a `List`. -/
def toPyList : List PyVal → PyList
  | [] => .nil
  | v :: vs => .cons v (toPyList vs)

/-- Literal-building convenience: a `PyKVs` field map from a `List`. -/
def toKVs : List (String × PyVal) → PyKVs
  | [] => .nil
  | (k, v) :: kvs => .cons k v (toKVs kvs)

/-- Literal-building convenience: an `OptPy` from an `Option`. -/
def toOpt : Option PyVal → OptPy
  | Option.none => .none
  | Option.some v => .some v

/-- Literal-building convenience: a `Schema` from a `List`. -/
def toSchema : List (String × FieldType × Option PyVal) → Schema
  | [] => .nil
  | (n, t, d) :: rest => .cons n t (toOpt d) (toSchema rest)

/-- The Python type name of a value (what `type(value)` prints as). -/
def PyVal.pyTy : PyVal → String
  | .vStr _ => "str"
  | .vInt _ => "int"
  | .vFloat _ => "float"
  | .vBool _ => "bool"
  | .vNone => "NoneType"
  | .vList _ => "list"
  | .vDict _ => "dict"
  | .vModel _ => "BaseModel"
  | .vOther t => t

/-- The declared field names, in declaration order. -/
def schemaNames : Schema → List String
  | .nil => []
  | .cons n _ _ rest => n :: schemaNames rest

/-- The field names of a field map, in order. -/
def kvNames : PyKVs → List String
  | .nil => []
  | .cons k _ rest => k :: kvNames rest

/-! ## JSON text encoding (model of `json.dumps`)

`json.dumps(obj, default=pydantic_encoder)` with the default separators
`", "` and `": "`.  `pydantic_encoder` turns a nested `BaseModel` into its
field dict, so `vModel` is encoded exactly like `vDict`.  Escaping covers
the characters the grammar requires (`"`, `\`, control characters); the
model emits other characters directly (CPython would additionally
`\uXXXX`-escape non-ASCII, which changes only the concrete text, not
decodability). -/

/-- Hex digit character (lowercase, as CPython emits). -/
def hexChar (k : Nat) : Char :=
  if k < 10 then Char.ofNat (48 + k) else Char.ofNat (87 + k)

/-- JSON string escaping of one character. -/
def escChar (c : Char) : List Char :=
  if c = '"' then ['\\', '"']
  else if c = '\\' then ['\\', '\\']
  else if c.toNat < 32 then
    ['\\', 'u', '0', '0', hexChar (c.toNat / 16), hexChar (c.toNat % 16)]
  else [c]

def escape : List Char → List Char
  | [] => []
  | c :: cs => escChar c ++ escape cs

/-- A quoted JSON string literal. -/
def quoteChars (s : String) : List Char := '"' :: (escape s.data ++ ['"'])

/-- Join pre-encoded parts with the default `", "` separator. -/
def joinComma : List (List Char) → List Char
  | [] => []
  | [p] => p
  | p :: ps => p ++ ',' :: ' ' :: joinComma ps

mutual

/-- Model of `json.dumps(·, default=pydantic_encoder)`: fails (Python
`TypeError`) on a value outside the JSON-serializable set. -/
def dumpsV : PyVal → Except String (List Char)
  | .vStr s => .ok (quoteChars s)
  | .vInt n => .ok (intChars n)
  | .vFloat f => .ok (fltChars f)
  | .vBool b => .ok (if b then "true".data else "false".data)
  | .vNone => .ok "null".data
  | .vList vs => do
    let parts ← dumpsL vs
    .ok ('[' :: (joinComma parts ++ [']']))
  | .vDict kvs => do
    let parts ← dumpsKV kvs
    .ok ('{' :: (joinComma parts ++ ['}']))
  | .vModel fs => do
    let parts ← dumpsKV fs
    .ok ('{' :: (joinComma parts ++ ['}']))
  | .vOther t => .error ("Object of type " ++ t ++ " is not JSON serializable")

def dumpsL : PyList → Except String (List (List Char))
  | .nil => .ok []
  | .cons v vs => do
    let p ← dumpsV v
    let ps ← dumpsL vs
    .ok (p :: ps)

def dumpsKV : PyKVs → Except String (List (List Char))
  | .nil => .ok []
  | .cons k v kvs => do
    let p ← dumpsV v
    let ps ← dumpsKV kvs
    .ok ((quoteChars k ++ ':' :: ' ' :: p) :: ps)

end

/-- `json.dumps` as a `String`-valued function. -/
def jsonDumps (v : PyVal) : Except String String := (dumpsV v).map (⟨·⟩)

/-! ## JSON text decoding (model of `json.loads`)

A recursive-descent parser for the JSON grammar; `none` models a raised
`json.JSONDecodeError`.  Nesting recursion is driven by a fuel parameter (a
termination artifact only: `jsonLoads` supplies fuel strictly larger than
any input of that length can consume). -/

/-- JSON insignificant whitespace. -/
def isWsC (c : Char) : Bool := c = ' ' || c = '\t' || c = '\n' || c = '\r'

def skipWs : List Char → List Char
  | [] => []
  | c :: cs => if isWsC c then skipWs cs else c :: cs

/-- Value of a hex digit character, if it is one. -/
def hexVal (c : Char) : Option Nat :=
  if 48 ≤ c.toNat && c.toNat ≤ 57 then some (c.toNat - 48)
  else if 97 ≤ c.toNat && c.toNat ≤ 102 then some (c.toNat - 87)
  else if 65 ≤ c.toNat && c.toNat ≤ 70 then some (c.toNat - 55)
  else none

/-! Body of a JSON string literal (after the opening quote), up to the
closing quote (`pStrChars`).  Rejects raw control characters
(`strict=True`).  Surrogate pairs in `\u` escapes are not recombined (a
model simplification; no property below exercises them). -/

mutual

def pStrChars : List Char → Option (List Char × List Char)
  | [] => none
  | c :: rest =>
    if c = '"' then some ([], rest)
    else if c = '\\' then pEsc rest
    else if c.toNat < 32 then none
    else (pStrChars rest).map fun (s, r') => (c :: s, r')

/-- The escape codes after a backslash. -/
def pEsc : List Char → Option (List Char × List Char)
  | '"' :: r => (pStrChars r).map fun (s, r') => ('"' :: s, r')
  | '\\' :: r => (pStrChars r).map fun (s, r') => ('\\' :: s, r')
  | '/' :: r => (pStrChars r).map fun (s, r') => ('/' :: s, r')
  | 'b' :: r => (pStrChars r).map fun (s, r') => (Char.ofNat 8 :: s, r')
  | 'f' :: r => (pStrChars r).map fun (s, r') => (Char.ofNat 12 :: s, r')
  | 'n' :: r => (pStrChars r).map fun (s, r') => ('\n' :: s, r')
  | 'r' :: r => (pStrChars r).map fun (s, r') => (Char.ofNat 13 :: s, r')
  | 't' :: r => (pStrChars r).map fun (s, r') => ('\t' :: s, r')
  | 'u' :: h1 :: h2 :: h3 :: h4 :: r =>
    match hexVal h1, hexVal h2, hexVal h3, hexVal h4 with
    | some a, some b, some c, some d =>
      (pStrChars r).map fun (s, r') =>
        (Char.ofNat (((a * 16 + b) * 16 + c) * 16 + d) :: s, r')
    | _, _, _, _ => none
  | _ => none

end

/-- Optional exponent part of a JSON number; returns `none` exponent when
absent. -/
def pExp (cs : List Char) : Option Int × List Char :=
  match cs with
  | 'e' :: r | 'E' :: r =>
    let (sgn, r1) : Bool × List Char :=
      match r with
      | '-' :: r' => (true, r')
      | '+' :: r' => (false, r')
      | _ => (false, r)
    let (ds, r2) := r1.span isDig
    if ds.isEmpty then (none, cs)
    else (some (if sgn then -(decVal ds : Int) else (decVal ds : Int)), r2)
  | _ => (none, cs)

/-- Build the float for mantissa `m` scaled by `10^(-scale)`. -/
def mkFlt (m : Int) (scale : Int) : Flt :=
  if scale ≤ 0 then ⟨m * 10 ^ (-scale).toNat, 0⟩ else canonFlt m scale.toNat

/-- A JSON number token after the optional sign (int if no fraction and no
exponent, else float). -/
def pNumBody (neg : Bool) (cs1 : List Char) : Option (PyVal × List Char) :=
  let (I, cs2) := cs1.span isDig
  if I.isEmpty then none
  else
    let app (n : Int) : Int := if neg then -n else n
    match cs2 with
    | '.' :: r =>
      let (F, r2) := r.span isDig
      if F.isEmpty then none
      else
        let mant : Nat := decVal I * 10 ^ F.length + decVal F
        match pExp r2 with
        | (some ex, r3) =>
          some (.vFloat (mkFlt (app mant) ((F.length : Int) - ex)), r3)
        | (none, _) => some (.vFloat (mkFlt (app mant) (F.length : Int)), r2)
    | _ =>
      match pExp cs2 with
      | (some ex, r3) => some (.vFloat (mkFlt (app (decVal I)) (-ex)), r3)
      | (none, _) => some (.vInt (app (decVal I)), cs2)

/-- A JSON number token (int if no fraction and no exponent, else float). -/
def pNumber (cs : List Char) : Option (PyVal × List Char) :=
  match cs with
  | '-' :: r => pNumBody true r
  | _ => pNumBody false cs

mutual

/-- One JSON value (with leading whitespace), returning the remaining
input. -/
def pVal : Nat → List Char → Option (PyVal × List Char)
  | 0, _ => none
  | fuel + 1, cs =>
    match skipWs cs with
    | '"' :: r => (pStrChars r).map fun (s, r') => (.vStr ⟨s⟩, r')
    | '[' :: r => (pArr fuel r).map fun (vs, r') => (.vList vs, r')
    | '{' :: r => (pObj fuel r).map fun (kvs, r') => (.vDict kvs, r')
    | 't' :: 'r' :: 'u' :: 'e' :: r => some (.vBool true, r)
    | 'f' :: 'a' :: 'l' :: 's' :: 'e' :: r => some (.vBool false, r)
    | 'n' :: 'u' :: 'l' :: 'l' :: r => some (.vNone, r)
    | c :: r => if isDig c || c = '-' then pNumber (c :: r) else none
    | [] => none

/-- Array elements, right after `[`. -/
def pArr : Nat → List Char → Option (PyList × List Char)
  | 0, _ => none
  | fuel + 1, cs =>
    match skipWs cs with
    | ']' :: r => some (.nil, r)
    | cs' => do
      let (v, r1) ← pVal fuel cs'
      let (vs, r2) ← pArrRest fuel r1
      some (.cons v vs, r2)

/-- Array continuation, right after an element. -/
def pArrRest : Nat → List Char → Option (PyList × List Char)
  | 0, _ => none
  | fuel + 1, cs =>
    match skipWs cs with
    | ']' :: r => some (.nil, r)
    | ',' :: r => do
      let (v, r1) ← pVal fuel r
      let (vs, r2) ← pArrRest fuel r1
      some (.cons v vs, r2)
    | _ => none

/-- Object members, right after `{`. -/
def pObj : Nat → List Char → Option (PyKVs × List Char)
  | 0, _ => none
  | fuel + 1, cs =>
    match skipWs cs with
    | '}' :: r => some (.nil, r)
    | '"' :: r => do
      let (k, r1) ← pStrChars r
      match skipWs r1 with
      | ':' :: r2 => do
        let (v, r3) ← pVal fuel r2
        let (kvs, r4) ← pObjRest fuel r3
        some (.cons ⟨k⟩ v kvs, r4)
      | _ => none
    | _ => none

/-- Object continuation, right after a member value. -/
def pObjRest : Nat → List Char → Option (PyKVs × List Char)
  | 0, _ => none
  | fuel + 1, cs =>
    match skipWs cs with
    | '}' :: r => some (.nil, r)
    | ',' :: r =>
      match skipWs r with
      | '"' :: r1 => do
        let (k, r2) ← pStrChars r1
        match skipWs r2 with
        | ':' :: r3 => do
          let (v, r4) ← pVal fuel r3
          let (kvs, r5) ← pObjRest fuel r4
          some (.cons ⟨k⟩ v kvs, r5)
        | _ => none
      | _ => none
    | _ => none

end

/-- Model of `json.loads`: parse one value, then require only whitespace up
to the end of input.  The fuel is larger than any input of this length can
consume. -/
def jsonLoads (s : String) : Option PyVal :=
  match pVal (2 * s.length + 4) s.data with
  | some (v, rest) => if skipWs rest = [] then some v else none
  | none => none

/-! ## YAML backend (coarse model of `yaml.safe_dump` / `yaml.safe_load`)

No theorem below depends on the internals of this backend — only on the
fact that `serialize`/`read` dispatch to it when the record class sets
`_backend = "yaml"`.  `safe_load` is modelled as: any text that parses
under the flow (JSON-compatible) grammar is taken structurally, any other
text is a YAML plain scalar, i.e. a string.  `safe_dump` is modelled as a
flow-style printer (a simplification of its block formatting) that fails on
values outside the representable set, as `safe_dump` does. -/

def yamlLoads (s : String) : Option PyVal :=
  match jsonLoads s with
  | some v => some v
  | none => some (.vStr s)

mutual

def yamlDumpsV : PyVal → Except String (List Char)
  | .vStr s => .ok s.data
  | .vInt n => .ok (intChars n)
  | .vFloat f => .ok (fltChars f)
  | .vBool b => .ok (if b then "true".data else "false".data)
  | .vNone => .ok "null".data
  | .vList vs => do
    let parts ← yamlDumpsL vs
    .ok ('[' :: (joinComma parts ++ [']']))
  | .vDict kvs => do
    let parts ← yamlDumpsKV kvs
    .ok ('{' :: (joinComma parts ++ ['}']))
  | .vModel _ => .error "cannot represent an object"
  | .vOther t => .error ("cannot represent an object: " ++ t)

def yamlDumpsL : PyList → Except String (List (List Char))
  | .nil => .ok []
  | .cons v vs => do
    let p ← yamlDumpsV v
    let ps ← yamlDumpsL vs
    .ok (p :: ps)

def yamlDumpsKV : PyKVs → Except String (List (List Char))
  | .nil => .ok []
  | .cons k v kvs => do
    let p ← yamlDumpsV v
    let ps ← yamlDumpsKV kvs
    .ok ((k.data ++ ':' :: ' ' :: p) :: ps)

end

def yamlDumps (v : PyVal) : Except String String := (yamlDumpsV v).map (⟨·⟩)

/-! ## Backend dispatch (`Backend = Literal["json", "yaml"]`, `_loads`,
`_dumps`) -/

inductive Backend where
  | json
  | yaml
  deriving DecidableEq, Repr

/-- `BaseRelationData._backend : ClassVar[Backend] = "json"`. -/
def defaultBackend : Backend := .json

/-- `cls._loads()`: the structured decoder for the configured backend. -/
def backendLoads : Backend → String → Option PyVal
  | .json => jsonLoads
  | .yaml => yamlLoads

/-- `cls._dumps()`: the structured encoder for the configured backend.
For json, `value.dict()` composed with
`json.dumps(..., default=pydantic_encoder)`. -/
def backendDumps : Backend → PyVal → Except String String
  | .json => jsonDumps
  | .yaml => yamlDumps

/-! ## Pydantic (v1, lenient) validation -/

/-- A single field-level violation (one entry of a pydantic
`ValidationError`). -/
inductive FieldErr where
  /-- required field missing -/
  | missing
  /-- type / coercion failure -/
  | invalid
  deriving DecidableEq, Repr

/-- All field-level violations of one failed construction: the payload of a
raised `ValidationError` (the spec's `ValidationFailure`). -/
abbrev Violations := List (String × FieldErr)

/-- First-match lookup in a field map (Python attribute/dict access). -/
def lookupRV (name : String) : PyKVs → Option PyVal
  | .nil => none
  | .cons k v rest => if k = name then some v else lookupRV name rest

/-- Lookup of a declared field in a schema. -/
def lookupFd (name : String) : Schema → Option (FieldType × OptPy)
  | .nil => none
  | .cons k t d rest => if k = name then some (t, d) else lookupFd name rest

/-- Model of Python `int(str)`: optional sign, then decimal digits. -/
def pyIntParse (s : String) : Option Int :=
  let (neg, ds) : Bool × List Char :=
    match s.data with
    | '-' :: r => (true, r)
    | '+' :: r => (false, r)
    | r => (false, r)
  if ds.isEmpty || !(ds.all isDig) then none
  else some (if neg then -(decVal ds : Int) else (decVal ds : Int))

/-- Model of Python `float(str)`: a finite decimal numeral. -/
def pyFloatParse (s : String) : Option Flt :=
  match pNumber s.data with
  | some (.vInt n, []) => some ⟨n, 0⟩
  | some (.vFloat f, []) => some f
  | _ => none

/-! Structural size functions on the value/type family.  They only feed the
fuel of `validateF` below (a termination artifact: validation in Python is
plain recursion; the wrapper `validate` always supplies adequate fuel). -/

mutual

def szPV : PyVal → Nat
  | .vList vs => 1 + szPL vs
  | .vDict kvs => 1 + szKV kvs
  | .vModel fs => 1 + szKV fs
  | _ => 1

def szPL : PyList → Nat
  | .nil => 1
  | .cons v vs => 1 + szPV v + szPL vs

def szKV : PyKVs → Nat
  | .nil => 1
  | .cons _ v kvs => 1 + szPV v + szKV kvs

end

mutual

def szFT : FieldType → Nat
  | .tModel sub => 1 + szS sub
  | .tList t => 1 + szFT t
  | .tDict t => 1 + szFT t
  | _ => 1

def szS : SchemaL → Nat
  | .nil => 1
  | .cons _ t _ rest => 1 + szFT t + szS rest

end

mutual

/-- Fueled body of `validate` (see there); each mutual call consumes one
unit of fuel, and the caller-side measure `szFT t + szPV v` strictly
decreases along every call, so the zero-fuel branches are unreachable from
`validate`. -/
def validateF : Nat → FieldType → PyVal → Except FieldErr PyVal
  | 0, _, _ => .error .invalid
  | fuel + 1, t, v =>
    match t, v with
    | .tAny, v => .ok v
    | .tStr, v =>
      match v with
      | .vStr s => .ok (.vStr s)
      | .vBool b => .ok (.vStr (if b then "True" else "False"))
      | .vInt n => .ok (.vStr (intStr n))
      | .vFloat f => .ok (.vStr (fltStr f))
      | _ => .error .invalid
    | .tInt, v =>
      match v with
      | .vInt n => .ok (.vInt n)
      | .vBool b => .ok (.vInt (if b then 1 else 0))
      | .vStr s =>
        match pyIntParse s with
        | some n => .ok (.vInt n)
        | none => .error .invalid
      | .vFloat f => .ok (.vInt (fltTrunc f))
      | _ => .error .invalid
    | .tFloat, v =>
      match v with
      | .vFloat f => .ok (.vFloat f)
      | .vInt n => .ok (.vFloat ⟨n, 0⟩)
      | .vBool b => .ok (.vFloat ⟨if b then 1 else 0, 0⟩)
      | .vStr s =>
        match pyFloatParse s with
        | some f => .ok (.vFloat f)
        | none => .error .invalid
      | _ => .error .invalid
    | .tModel sub, v =>
      match v with
      | .vModel fs => .ok (.vModel fs)
      | .vDict kvs =>
        match validateFieldsF fuel sub kvs with
        | ([], vals) => .ok (.vModel vals)
        | (_ :: _, _) => .error .invalid
      | _ => .error .invalid
    | .tList t, v =>
      match v with
      | .vList vs =>
        match validateListF fuel t vs with
        | .ok cs => .ok (.vList cs)
        | .error e => .error e
      | _ => .error .invalid
    | .tDict t, v =>
      match v with
      | .vDict kvs =>
        match validateDictValsF fuel t kvs with
        | .ok cs => .ok (.vDict cs)
        | .error e => .error e
      | _ => .error .invalid

/-- Fueled body of `validateFields` (see there). -/
def validateFieldsF : Nat → SchemaL → PyKVs → Violations × PyKVs
  | 0, _, _ => ([], .nil)
  | fuel + 1, sc, kvs =>
    match sc with
    | .nil => ([], .nil)
    | .cons name t d rest =>
      let (errs, vals) := validateFieldsF fuel rest kvs
      match lookupRV name kvs with
      | some v =>
        match validateF fuel t v with
        | .ok c => (errs, .cons name c vals)
        | .error e => ((name, e) :: errs, vals)
      | none =>
        match d with
        | .some dv => (errs, .cons name dv vals)
        | .none => ((name, .missing) :: errs, vals)

/-- Fueled body of `validateList` (see there). -/
def validateListF : Nat → FieldType → PyList → Except FieldErr PyList
  | 0, _, _ => .error .invalid
  | fuel + 1, t, vs =>
    match vs with
    | .nil => .ok .nil
    | .cons v vs => do
      let c ← validateF fuel t v
      let cs ← validateListF fuel t vs
      .ok (.cons c cs)

/-- Fueled body of `validateDictVals` (see there). -/
def validateDictValsF : Nat → FieldType → PyKVs → Except FieldErr PyKVs
  | 0, _, _ => .error .invalid
  | fuel + 1, t, kvs =>
    match kvs with
    | .nil => .ok .nil
    | .cons k v kvs => do
      let c ← validateF fuel t v
      let cs ← validateDictValsF fuel t kvs
      .ok (.cons k c cs)

end

/-- Pydantic v1 field validation/coercion of one value against one declared
annotation.  Lenient mode: numeric strings coerce to numbers, numbers
coerce to strings, a dict populates a nested model, a model instance is
accepted as-is. -/
def validate (t : FieldType) (v : PyVal) : Except FieldErr PyVal :=
  validateF (szFT t + szPV v) t v

/-- Validate supplied keyword values against the declared fields, collecting
every field-level failure (pydantic collects all errors before raising);
missing fields take their declared default, or fail as required.  Extra
keys are ignored (pydantic v1 default config). -/
def validateFields (sc : SchemaL) (kvs : PyKVs) : Violations × PyKVs :=
  validateFieldsF (szS sc + szKV kvs) sc kvs

/-- Elementwise validation of a `List[t]`-typed value. -/
def validateList (t : FieldType) (vs : PyList) : Except FieldErr PyList :=
  validateListF (szFT t + szPL vs) t vs

/-- Valuewise validation of a `Dict[str, t]`-typed value. -/
def validateDictVals (t : FieldType) (kvs : PyKVs) : Except FieldErr PyKVs :=
  validateDictValsF (szFT t + szKV kvs) t kvs

/-- Pydantic model construction `cls(**kwargs)`: `.ok` is the validated
field map (in declaration order), `.error` the violations of a raised
`ValidationError`. -/
def validateModel (sc : Schema) (kwargs : PyKVs) : Except Violations PyKVs :=
  match validateFields sc kwargs with
  | ([], vals) => .ok vals
  | (e :: es, _) => .error (e :: es)

/-! ## The external key-value bag (`RelationDataContent`)

An insertion-ordered string→string mapping; `setKey` is `bag[k] = v`
(update in place or append), `lookupBag` is `bag[k]` / `k in bag`. -/

abbrev Bag := List (String × String)

def lookupBag (k : String) : Bag → Option String
  | [] => none
  | (k', v) :: rest => if k' = k then some v else lookupBag k rest

def setKey (k v : String) : Bag → Bag
  | [] => [(k, v)]
  | (k', v') :: rest => if k' = k then (k, v) :: rest else (k', v') :: setKey k v rest

/-! ## `BaseRelationData` -/

/-- The underscore→hyphen transform `name.replace("_", "-")` applied to a
declared field name to obtain its external key. -/
def extKey (name : String) : String :=
  ⟨name.data.map fun c => if c = '_' then '-' else c⟩

/-- The exceptions `BaseRelationData.serialize` can raise. -/
inductive SerErr where
  /-- `ValueError(f"Type of value {type(value)} not serializable")`: the
  value is outside the closed serializable set; carries the offending
  Python type name. -/
  | notSerializable (tyName : String)
  /-- An encoding error raised inside the backend (`TypeError` from
  `json.dumps` / representer error from `yaml.safe_dump`) on a nested
  unrepresentable value. -/
  | encodeError (msg : String)
  deriving DecidableEq, Repr

/-- `BaseRelationData.serialize(cls, name, value)`, translated clause by
clause.  `bool` is a Python `int` subclass, so `vBool` is caught by the
scalar `isinstance` branch and rendered via `str`. -/
def serialize (b : Backend) (name : String) (value : PyVal) :
    Except SerErr (String × String) :=
  match value with
  | .vStr s => .ok (extKey name, s)
  | .vInt n => .ok (extKey name, intStr n)
  | .vBool bl => .ok (extKey name, if bl then "True" else "False")
  | .vFloat f => .ok (extKey name, fltStr f)
  | .vModel fs =>
    match backendDumps b (.vModel fs) with
    | .ok s => .ok (extKey name, s)
    | .error m => .error (.encodeError m)
  | .vDict kvs =>
    match backendDumps b (.vDict kvs) with
    | .ok s => .ok (extKey name, s)
    | .error m => .error (.encodeError m)
  | .vList vs =>
    match backendDumps b (.vList vs) with
    | .ok s => .ok (extKey name, s)
    | .error m => .error (.encodeError m)
  | v => .error (.notSerializable v.pyTy)

/-- A `BaseRelationData` instance: its validated field values (in
declaration order) and whether `_relation` is set (the binding).  The bag
itself is external state, passed explicitly. -/
structure RecState where
  vals : PyKVs
  bound : Bool

/-- The exceptions an attribute assignment can raise. -/
inductive SetErr where
  /-- pydantic `ValidationError` from `validate_assignment` (the spec's
  `FieldValidationError`); the field never changes. -/
  | validation (errs : Violations)
  /-- `serialize` failure during write-through. -/
  | ser (e : SerErr)
  /-- assignment to an undeclared attribute (pydantic v1 raises). -/
  | noField
  deriving DecidableEq, Repr

/-- Result of an attribute assignment: the record and bag afterwards, and
the exception raised, if any (Python state mutated before the raise is
visible in `record`/`bag`). -/
structure SetOutcome where
  record : RecState
  bag : Bag
  err : Option SetErr

/-- Replace the value of a field in the in-memory field map. -/
def setRV (name : String) (c : PyVal) : PyKVs → PyKVs
  | .nil => .nil
  | .cons k v rest => if k = name then .cons k c rest else .cons k v (setRV name c rest)

/-- `BaseRelationData.__setattr__(self, name, value)`:
`BaseModel.__setattr__` first (validate under `validate_assignment=True`,
then update the field — raising leaves everything unchanged), then, if
`self._relation is not None`, write through: `serialize` the coerced
attribute value and assign `self._relation[serialized_key]`.  (The
`name != "_relation"` guard is implicit here: binding state is changed only
by `bind`/`unbind` below.) -/
def setField (sc : Schema) (b : Backend) (r : RecState) (bag : Bag)
    (name : String) (value : PyVal) : SetOutcome :=
  match lookupFd name sc with
  | none => ⟨r, bag, some .noField⟩
  | some (t, _) =>
    match validate t value with
    | .error e => ⟨r, bag, some (.validation [(name, e)])⟩
    | .ok c =>
      let r' : RecState := ⟨setRV name c r.vals, r.bound⟩
      if r.bound then
        match serialize b name c with
        | .ok (k, s) => ⟨r', setKey k s bag, none⟩
        | .error e => ⟨r', bag, some (.ser e)⟩
      else ⟨r', bag, none⟩

/-- The write-out loop of `bind`: serialize every field in declaration
order into the bag; a `serialize` exception aborts the loop (fields before
it are already written). -/
def writeAll (b : Backend) : PyKVs → Bag → Bag × Option SerErr
  | .nil, bag => (bag, none)
  | .cons name v rest, bag =>
    match serialize b name v with
    | .ok (k, s) => writeAll b rest (setKey k s bag)
    | .error e => (bag, some e)

/-- `BaseRelationData.bind(self, relation)`: set `self._relation`, then
write every currently-held field's serialized form into the bag, and return
`self`.  The returned triple is (the record `bind` returns, the bag
afterwards, the exception raised, if any). -/
def bindBag (b : Backend) (r : RecState) (bag : Bag) :
    RecState × Bag × Option SerErr :=
  let (bag', err) := writeAll b r.vals bag
  (⟨r.vals, true⟩, bag', err)

/-- `BaseRelationData.unbind(self)`: clear `self._relation`, return
`self`. -/
def unbind (r : RecState) : RecState := ⟨r.vals, false⟩

/-- The exceptions `BaseRelationData.read` can raise. -/
inductive ReadError where
  /-- a decode error raised by the backend decoder (`json.JSONDecodeError`
  / YAML parser error) while building the keyword dict — NOT a pydantic
  `ValidationError`. -/
  | decode
  /-- pydantic `ValidationError` raised by `cls(**kwargs)`. -/
  | validation (errs : Violations)
  deriving DecidableEq, Repr

/-- The test `field.annotation in (str, int)` of `read`. -/
def bareAnn : FieldType → Bool
  | .tStr => true
  | .tInt => true
  | _ => false

/-- The dict comprehension inside `read`: for every declared field whose
transformed key is in the bag, the raw string — decoded by the configured
backend unless the annotation is `str` or `int`, which are taken as bare
strings (`str(relation_data[parsed_key])`).  The first decoder exception
propagates. -/
def buildKwargs (b : Backend) : Schema → Bag → Except ReadError PyKVs
  | .nil, _ => .ok .nil
  | .cons name t _ rest, bag =>
    match lookupBag (extKey name) bag with
    | none => buildKwargs b rest bag
    | some raw =>
      if bareAnn t then (buildKwargs b rest bag).map (.cons name (.vStr raw) ·)
      else
        match backendLoads b raw with
        | some v => (buildKwargs b rest bag).map (.cons name v ·)
        | none => .error .decode

/-- `BaseRelationData.read(cls, relation_data)`: build the keyword dict
from the bag, then construct `cls(**kwargs)`.  Nothing is caught here: a
decoder failure or a pydantic `ValidationError` propagates to the caller
as a raised exception (`.error`). -/
def read (sc : Schema) (b : Backend) (bag : Bag) : Except ReadError PyKVs :=
  match buildKwargs b sc bag with
  | .error e => .error e
  | .ok kwargs =>
    match validateModel sc kwargs with
    | .ok vals => .ok vals
    | .error errs => .error (.validation errs)

/-! ## The `parse_relation_data` decorator -/

/-- What the wrapper passes to the handler in place of one databag:
the parsed record, the caught `ValidationError` (as data), or `None` when
no model class was supplied. -/
inductive ParsedArg where
  | record (vals : PyKVs)
  | failure (errs : Violations)
  | noneArg

/-- One `try: model.read(...) except ValidationError as e:` block of
`event_wrapper`: only a `ValidationError` is caught and substituted as
data; any other exception (e.g. a decode error) propagates. -/
def readSide : Option (Schema × Backend) → Bag → Except ReadError ParsedArg
  | none, _ => .ok .noneArg
  | some (sc, b), bag =>
    match read sc b bag with
    | .ok vals => .ok (.record vals)
    | .error (.validation errs) => .ok (.failure errs)
    | .error .decode => .error .decode

/-- The event seen by a wrapped handler: the app-side and unit-side bags of
`event.relation.data`. -/
structure Event where
  appBag : Bag
  unitBag : Bag

/-- `parse_relation_data(app_model, unit_model)` applied to a handler `f`:
the wrapper reads both sides (catching only `ValidationError`) and then
always calls `f` with the two parsed arguments.  `.error` models an
exception escaping the wrapper, in which case `f` was never invoked. -/
def eventWrapper {α : Type} (appModel unitModel : Option (Schema × Backend))
    (f : Event → ParsedArg → ParsedArg → α) (ev : Event) : Except ReadError α :=
  match readSide appModel ev.appBag with
  | .error e => .error e
  | .ok appData =>
    match readSide unitModel ev.unitBag with
    | .error e => .error e
    | .ok unitData => .ok (f ev appData unitData)

/-! ## Notions used by the round-trip development -/

/-- The tail of `joinComma` after its first part. -/
def joinRest : List (List Char) → List Char
  | [] => []
  | p :: ps => ',' :: ' ' :: (p ++ joinRest ps)

/-! `value.dict()` / `pydantic_encoder`: nested `BaseModel`s replaced by
their field dicts, recursively.  This is the shape `json.loads` gives back
for serialized structured values. -/

mutual

def toDictV : PyVal → PyVal
  | .vList vs => .vList (toDictL vs)
  | .vDict kvs => .vDict (toDictKV kvs)
  | .vModel fs => .vDict (toDictKV fs)
  | v => v

def toDictL : PyList → PyList
  | .nil => .nil
  | .cons v vs => .cons (toDictV v) (toDictL vs)

def toDictKV : PyKVs → PyKVs
  | .nil => .nil
  | .cons k v kvs => .cons k (toDictV v) (toDictKV kvs)

end

/-! JSON-encodable and decimal-canonical: no value of non-serializable
type anywhere, and every float in shortest-decimal form (as `str` of a
Python float always is). -/

mutual

def canonV : PyVal → Bool
  | .vFloat f => f.canon
  | .vOther _ => false
  | .vList vs => canonL vs
  | .vDict kvs => canonKV kvs
  | .vModel fs => canonKV fs
  | _ => true

def canonL : PyList → Bool
  | .nil => true
  | .cons v vs => canonV v && canonL vs

def canonKV : PyKVs → Bool
  | .nil => true
  | .cons _ v kvs => canonV v && canonKV kvs

end

/-! Conformance of a validated record's field map to its schema: fields in
declaration order with distinct names, each value of exactly the declared
shape (the canonical form `cls(**kwargs)` produces), floats canonical.
`tAny`-typed fields do not conform (their values need not serialize). -/

mutual

def confT : FieldType → PyVal → Bool
  | .tStr, .vStr _ => true
  | .tInt, .vInt _ => true
  | .tFloat, .vFloat f => f.canon
  | .tModel sub, .vModel fs => confFields sub fs
  | .tList t, .vList vs => confL t vs
  | .tDict t, .vDict kvs => confKV t kvs
  | _, _ => false

def confFields : SchemaL → PyKVs → Bool
  | .nil, .nil => true
  | .cons n t _ rest, .cons n' v fs =>
    (n == n') && !((kvNames fs).contains n) && confT t v && confFields rest fs
  | _, _ => false

def confL (t : FieldType) : PyList → Bool
  | .nil => true
  | .cons v vs => confT t v && confL t vs

def confKV (t : FieldType) : PyKVs → Bool
  | .nil => true
  | .cons _ v kvs => confT t v && confKV t kvs

end

/-! Fuel bounds mirroring the parser's call structure (termination
artifacts only). -/

mutual

def pbV : PyVal → Nat
  | .vList vs => 1 + pbA vs
  | .vDict kvs => 1 + pbO kvs
  | .vModel fs => 1 + pbO fs
  | _ => 1

def pbA : PyList → Nat
  | .nil => 1
  | .cons v vs => 1 + pbV v + pbR vs

def pbR : PyList → Nat
  | .nil => 1
  | .cons v vs => 1 + pbV v + pbR vs

def pbO : PyKVs → Nat
  | .nil => 1
  | .cons _ v kvs => 1 + pbV v + pbOR kvs

def pbOR : PyKVs → Nat
  | .nil => 1
  | .cons _ v kvs => 1 + pbV v + pbOR kvs

end

/-- Input that cannot extend a just-parsed number token. -/
def numBdry : List Char → Prop
  | [] => True
  | c :: _ => isDig c = false ∧ c ≠ '.' ∧ c ≠ 'e' ∧ c ≠ 'E'

/-- Per-character form of the transform. -/
def hyphenate (c : Char) : Char := if c = '_' then '-' else c

/-- Does `serialize` succeed on every field of the map? -/
def allSer (b : Backend) : PyKVs → Bool
  | .nil => true
  | .cons name v rest => (serialize b name v).isOk && allSer b rest

/-- The head of the remaining input does not satisfy `p`. -/
def headNot (p : Char → Bool) : List Char → Prop
  | [] => True
  | c :: _ => p c = false

/-! # Theorems -/

/-! ## Size positivity and fuel irrelevance for the validation family -/

theorem szPV_pos (v : PyVal) : 1 ≤ szPV v := by
  cases v <;> simp [szPV] <;> omega

theorem szPL_pos (vs : PyList) : 1 ≤ szPL vs := by
  cases vs <;> simp [szPL] <;> omega

theorem szKV_pos (kvs : PyKVs) : 1 ≤ szKV kvs := by
  cases kvs <;> simp [szKV] <;> omega

theorem szFT_pos (t : FieldType) : 1 ≤ szFT t := by
  cases t <;> simp [szFT] <;> omega

theorem szS_pos (sc : SchemaL) : 1 ≤ szS sc := by
  cases sc <;> simp [szS] <;> omega

theorem szPV_lookup_lt (name : String) (kvs : PyKVs) (v : PyVal)
    (h : lookupRV name kvs = some v) : szPV v < szKV kvs := by
  match kvs with
  | .nil => simp [lookupRV] at h
  | .cons k w rest =>
    simp only [lookupRV] at h
    by_cases hk : k = name
    · simp [hk] at h
      subst h
      simp [szKV]
      omega
    · simp [hk] at h
      have := szPV_lookup_lt name rest v h
      simp [szKV]
      omega

mutual

theorem validateF_irrel (fuel fuel' : Nat) (t : FieldType) (v : PyVal)
    (h : szFT t + szPV v ≤ fuel) (h' : szFT t + szPV v ≤ fuel') :
    validateF fuel t v = validateF fuel' t v := by
  match fuel, fuel' with
  | 0, _ =>
    exfalso
    have := szFT_pos t
    have := szPV_pos v
    omega
  | _ + 1, 0 =>
    exfalso
    have := szFT_pos t
    have := szPV_pos v
    omega
  | fuel + 1, fuel' + 1 =>
    cases t with
    | tStr => cases v <;> rfl
    | tInt => cases v <;> rfl
    | tFloat => cases v <;> rfl
    | tAny => rfl
    | tModel sub =>
      cases v with
      | vDict kvs =>
        have hs : szS sub + szKV kvs ≤ fuel := by
          simp [szFT, szPV] at h
          omega
        have hs' : szS sub + szKV kvs ≤ fuel' := by
          simp [szFT, szPV] at h'
          omega
        simp only [validateF]
        rw [validateFieldsF_irrel fuel fuel' sub kvs hs hs']
      | vStr _ => rfl
      | vInt _ => rfl
      | vFloat _ => rfl
      | vBool _ => rfl
      | vNone => rfl
      | vList _ => rfl
      | vModel _ => rfl
      | vOther _ => rfl
    | tList t =>
      cases v with
      | vList vs =>
        have hs : szFT t + szPL vs ≤ fuel := by
          simp [szFT, szPV] at h
          omega
        have hs' : szFT t + szPL vs ≤ fuel' := by
          simp [szFT, szPV] at h'
          omega
        simp only [validateF]
        rw [validateListF_irrel fuel fuel' t vs hs hs']
      | vStr _ => rfl
      | vInt _ => rfl
      | vFloat _ => rfl
      | vBool _ => rfl
      | vNone => rfl
      | vDict _ => rfl
      | vModel _ => rfl
      | vOther _ => rfl
    | tDict t =>
      cases v with
      | vDict kvs =>
        have hs : szFT t + szKV kvs ≤ fuel := by
          simp [szFT, szPV] at h
          omega
        have hs' : szFT t + szKV kvs ≤ fuel' := by
          simp [szFT, szPV] at h'
          omega
        simp only [validateF]
        rw [validateDictValsF_irrel fuel fuel' t kvs hs hs']
      | vStr _ => rfl
      | vInt _ => rfl
      | vFloat _ => rfl
      | vBool _ => rfl
      | vNone => rfl
      | vList _ => rfl
      | vModel _ => rfl
      | vOther _ => rfl

theorem validateFieldsF_irrel (fuel fuel' : Nat) (sc : SchemaL) (kvs : PyKVs)
    (h : szS sc + szKV kvs ≤ fuel) (h' : szS sc + szKV kvs ≤ fuel') :
    validateFieldsF fuel sc kvs = validateFieldsF fuel' sc kvs := by
  match fuel, fuel' with
  | 0, _ =>
    exfalso
    have := szS_pos sc
    have := szKV_pos kvs
    omega
  | _ + 1, 0 =>
    exfalso
    have := szS_pos sc
    have := szKV_pos kvs
    omega
  | fuel + 1, fuel' + 1 =>
    cases sc with
    | nil => rfl
    | cons name t d rest =>
      have hrest : szS rest + szKV kvs ≤ fuel := by
        have := szFT_pos t
        simp [szS] at h
        omega
      have hrest' : szS rest + szKV kvs ≤ fuel' := by
        have := szFT_pos t
        simp [szS] at h'
        omega
      cases hl : lookupRV name kvs with
      | none =>
        simp only [validateFieldsF, hl]
        rw [validateFieldsF_irrel fuel fuel' rest kvs hrest hrest']
      | some v =>
        have hv := szPV_lookup_lt name kvs v hl
        have ht : szFT t + szPV v ≤ fuel := by
          have := szS_pos rest
          simp [szS] at h
          omega
        have ht' : szFT t + szPV v ≤ fuel' := by
          have := szS_pos rest
          simp [szS] at h'
          omega
        simp only [validateFieldsF, hl]
        rw [validateFieldsF_irrel fuel fuel' rest kvs hrest hrest',
          validateF_irrel fuel fuel' t v ht ht']

theorem validateListF_irrel (fuel fuel' : Nat) (t : FieldType) (vs : PyList)
    (h : szFT t + szPL vs ≤ fuel) (h' : szFT t + szPL vs ≤ fuel') :
    validateListF fuel t vs = validateListF fuel' t vs := by
  match fuel, fuel' with
  | 0, _ =>
    exfalso
    have := szFT_pos t
    have := szPL_pos vs
    omega
  | _ + 1, 0 =>
    exfalso
    have := szFT_pos t
    have := szPL_pos vs
    omega
  | fuel + 1, fuel' + 1 =>
    cases vs with
    | nil => rfl
    | cons v vs =>
      have hv : szFT t + szPV v ≤ fuel := by
        have := szPL_pos vs
        simp [szPL] at h
        omega
      have hv' : szFT t + szPV v ≤ fuel' := by
        have := szPL_pos vs
        simp [szPL] at h'
        omega
      have hvs : szFT t + szPL vs ≤ fuel := by
        have := szPV_pos v
        simp [szPL] at h
        omega
      have hvs' : szFT t + szPL vs ≤ fuel' := by
        have := szPV_pos v
        simp [szPL] at h'
        omega
      simp only [validateListF]
      rw [validateF_irrel fuel fuel' t v hv hv',
        validateListF_irrel fuel fuel' t vs hvs hvs']

theorem validateDictValsF_irrel (fuel fuel' : Nat) (t : FieldType) (kvs : PyKVs)
    (h : szFT t + szKV kvs ≤ fuel) (h' : szFT t + szKV kvs ≤ fuel') :
    validateDictValsF fuel t kvs = validateDictValsF fuel' t kvs := by
  match fuel, fuel' with
  | 0, _ =>
    exfalso
    have := szFT_pos t
    have := szKV_pos kvs
    omega
  | _ + 1, 0 =>
    exfalso
    have := szFT_pos t
    have := szKV_pos kvs
    omega
  | fuel + 1, fuel' + 1 =>
    cases kvs with
    | nil => rfl
    | cons k v kvs =>
      have hv : szFT t + szPV v ≤ fuel := by
        have := szKV_pos kvs
        simp [szKV] at h
        omega
      have hv' : szFT t + szPV v ≤ fuel' := by
        have := szKV_pos kvs
        simp [szKV] at h'
        omega
      have hvs : szFT t + szKV kvs ≤ fuel := by
        have := szPV_pos v
        simp [szKV] at h
        omega
      have hvs' : szFT t + szKV kvs ≤ fuel' := by
        have := szPV_pos v
        simp [szKV] at h'
        omega
      simp only [validateDictValsF]
      rw [validateF_irrel fuel fuel' t v hv hv',
        validateDictValsF_irrel fuel fuel' t kvs hvs hvs']

end

/-! Unfueled equations for `validate`/`validateFields`/`validateList`/
`validateDictVals`: these are the recursion equations of the Python-level
validation, free of the fuel artifact. -/

theorem validate_tModel_vDict (sub : SchemaL) (kvs : PyKVs) :
    validate (.tModel sub) (.vDict kvs)
      = match validateFields sub kvs with
        | ([], vals) => .ok (.vModel vals)
        | (_ :: _, _) => .error .invalid := by
  unfold validate validateFields
  have h1 : szFT (.tModel sub) + szPV (.vDict kvs)
      = (szS sub + szKV kvs + 1) + 1 := by
    simp [szFT, szPV]
    omega
  rw [h1]
  simp only [validateF]
  rw [validateFieldsF_irrel (szS sub + szKV kvs + 1) (szS sub + szKV kvs) sub kvs
    (by omega) (by omega)]

theorem validate_tList_vList (t : FieldType) (vs : PyList) :
    validate (.tList t) (.vList vs)
      = match validateList t vs with
        | .ok cs => .ok (.vList cs)
        | .error e => .error e := by
  unfold validate validateList
  have h1 : szFT (.tList t) + szPV (.vList vs) = (szFT t + szPL vs + 1) + 1 := by
    simp [szFT, szPV]
    omega
  rw [h1]
  simp only [validateF]
  rw [validateListF_irrel (szFT t + szPL vs + 1) (szFT t + szPL vs) t vs
    (by omega) (by omega)]

theorem validate_tDict_vDict (t : FieldType) (kvs : PyKVs) :
    validate (.tDict t) (.vDict kvs)
      = match validateDictVals t kvs with
        | .ok cs => .ok (.vDict cs)
        | .error e => .error e := by
  unfold validate validateDictVals
  have h1 : szFT (.tDict t) + szPV (.vDict kvs) = (szFT t + szKV kvs + 1) + 1 := by
    simp [szFT, szPV]
    omega
  rw [h1]
  simp only [validateF]
  rw [validateDictValsF_irrel (szFT t + szKV kvs + 1) (szFT t + szKV kvs) t kvs
    (by omega) (by omega)]

theorem validateFields_nil (kvs : PyKVs) : validateFields .nil kvs = ([], .nil) := by
  unfold validateFields
  have h1 : szS .nil + szKV kvs = (szKV kvs) + 1 := by
    simp [szS]
    omega
  rw [h1]
  rfl

theorem validateFields_cons (name : String) (t : FieldType) (d : OptPy)
    (rest : SchemaL) (kvs : PyKVs) :
    validateFields (.cons name t d rest) kvs
      = (let (errs, vals) := validateFields rest kvs
         match lookupRV name kvs with
         | some v =>
           match validate t v with
           | .ok c => (errs, .cons name c vals)
           | .error e => ((name, e) :: errs, vals)
         | none =>
           match d with
           | .some dv => (errs, .cons name dv vals)
           | .none => ((name, .missing) :: errs, vals)) := by
  have h1 : szS (.cons name t d rest) + szKV kvs
      = (szFT t + szS rest + szKV kvs) + 1 := by
    simp [szS]
    omega
  cases hl : lookupRV name kvs with
  | none =>
    unfold validate validateFields
    rw [h1]
    simp only [validateFieldsF, hl]
    rw [validateFieldsF_irrel (szFT t + szS rest + szKV kvs) (szS rest + szKV kvs)
      rest kvs (by have := szFT_pos t; omega) (by omega)]
  | some v =>
    have hv := szPV_lookup_lt name kvs v hl
    unfold validate validateFields
    rw [h1]
    simp only [validateFieldsF, hl]
    rw [validateFieldsF_irrel (szFT t + szS rest + szKV kvs) (szS rest + szKV kvs)
      rest kvs (by have := szFT_pos t; omega) (by omega),
      validateF_irrel (szFT t + szS rest + szKV kvs) (szFT t + szPV v) t v
        (by have := szS_pos rest; omega) (by omega)]

theorem validateList_nil (t : FieldType) : validateList t .nil = .ok .nil := by
  unfold validateList
  have h1 : szFT t + szPL .nil = (szFT t) + 1 := by
    simp [szPL]
  rw [h1]
  rfl

theorem validateList_cons (t : FieldType) (v : PyVal) (vs : PyList) :
    validateList t (.cons v vs)
      = (do
          let c ← validate t v
          let cs ← validateList t vs
          .ok (.cons c cs)) := by
  unfold validate validateList
  have h1 : szFT t + szPL (.cons v vs) = (szFT t + szPV v + szPL vs) + 1 := by
    simp [szPL]
    omega
  rw [h1]
  simp only [validateListF]
  rw [validateF_irrel (szFT t + szPV v + szPL vs) (szFT t + szPV v) t v
      (by have := szPL_pos vs; omega) (by omega),
    validateListF_irrel (szFT t + szPV v + szPL vs) (szFT t + szPL vs) t vs
      (by have := szPV_pos v; omega) (by omega)]

theorem validateDictVals_nil (t : FieldType) : validateDictVals t .nil = .ok .nil := by
  unfold validateDictVals
  have h1 : szFT t + szKV .nil = (szFT t) + 1 := by
    simp [szKV]
  rw [h1]
  rfl

theorem validateDictVals_cons (t : FieldType) (k : String) (v : PyVal) (kvs : PyKVs) :
    validateDictVals t (.cons k v kvs)
      = (do
          let c ← validate t v
          let cs ← validateDictVals t kvs
          .ok (.cons k c cs)) := by
  unfold validate validateDictVals
  have h1 : szFT t + szKV (.cons k v kvs) = (szFT t + szPV v + szKV kvs) + 1 := by
    simp [szKV]
    omega
  rw [h1]
  simp only [validateDictValsF]
  rw [validateF_irrel (szFT t + szPV v + szKV kvs) (szFT t + szPV v) t v
      (by have := szKV_pos kvs; omega) (by omega),
    validateDictValsF_irrel (szFT t + szPV v + szKV kvs) (szFT t + szKV kvs) t kvs
      (by have := szPV_pos v; omega) (by omega)]

/-! ## Bag update/lookup -/

theorem lookupBag_setKey (q k v : String) (bag : Bag) :
    lookupBag q (setKey k v bag) = if k = q then some v else lookupBag q bag := by
  induction bag with
  | nil =>
    by_cases h : k = q <;> simp [setKey, lookupBag, h]
  | cons kv rest ih =>
    obtain ⟨k0, v0⟩ := kv
    by_cases h0 : k0 = k
    · subst h0
      by_cases h : k0 = q <;> simp [setKey, lookupBag, h]
    · by_cases h : k0 = q
      · subst h
        have hkq : ¬ k = k0 := fun hh => h0 hh.symm
        simp [setKey, lookupBag, h0, hkq]
      · simp [setKey, lookupBag, h0, h, ih]

/-! ## The underscore→hyphen name transform -/

theorem extKey_data (name : String) :
    (extKey name).data = name.data.map hyphenate := rfl

theorem hyphenate_inj (a b : Char) (ha : a ≠ '-') (hb : b ≠ '-')
    (h : hyphenate a = hyphenate b) : a = b := by
  unfold hyphenate at h
  by_cases ha' : a = '_'
  · by_cases hb' : b = '_'
    · rw [ha', hb']
    · simp [ha', hb'] at h
      exact absurd h.symm hb
  · by_cases hb' : b = '_'
    · simp [ha', hb'] at h
      exact absurd h ha
    · simpa [ha', hb'] using h

theorem map_hyphenate_inj (l1 l2 : List Char) (h1 : '-' ∉ l1) (h2 : '-' ∉ l2)
    (h : l1.map hyphenate = l2.map hyphenate) : l1 = l2 := by
  induction l1 generalizing l2 with
  | nil =>
    cases l2 with
    | nil => rfl
    | cons b bs => simp at h
  | cons a as ih =>
    cases l2 with
    | nil => simp at h
    | cons b bs =>
      simp only [List.map_cons, List.cons.injEq] at h
      have ha : a ≠ '-' := fun hh => h1 (hh ▸ List.mem_cons_self a as)
      have hb : b ≠ '-' := fun hh => h2 (hh ▸ List.mem_cons_self b bs)
      have hab := hyphenate_inj a b ha hb h.1
      have has : '-' ∉ as := fun hh => h1 (List.mem_cons_of_mem a hh)
      have hbs : '-' ∉ bs := fun hh => h2 (List.mem_cons_of_mem b hh)
      rw [hab, ih bs has hbs h.2]

theorem extKey_inj (n1 n2 : String) (h1 : '-' ∉ n1.data) (h2 : '-' ∉ n2.data)
    (h : extKey n1 = extKey n2) : n1 = n2 := by
  have hd : n1.data.map hyphenate = n2.data.map hyphenate := by
    have := congrArg String.data h
    simpa [extKey_data] using this
  have := map_hyphenate_inj n1.data n2.data h1 h2 hd
  cases n1
  cases n2
  exact congrArg String.mk (by simpa using this)

/-- Every `.ok` branch of `serialize` uses the transformed field name as the
external key. -/
theorem serialize_key (b : Backend) (name : String) (v : PyVal) (k s : String)
    (h : serialize b name v = .ok (k, s)) : k = extKey name := by
  cases v with
  | vStr s' =>
    simp only [serialize, Except.ok.injEq, Prod.mk.injEq] at h
    exact h.1.symm
  | vInt n =>
    simp only [serialize, Except.ok.injEq, Prod.mk.injEq] at h
    exact h.1.symm
  | vBool bl =>
    simp only [serialize, Except.ok.injEq, Prod.mk.injEq] at h
    exact h.1.symm
  | vFloat f =>
    simp only [serialize, Except.ok.injEq, Prod.mk.injEq] at h
    exact h.1.symm
  | vModel fs =>
    cases hb : backendDumps b (.vModel fs) with
    | ok s' =>
      simp only [serialize, hb, Except.ok.injEq, Prod.mk.injEq] at h
      exact h.1.symm
    | error m => simp [serialize, hb] at h
  | vDict kvs =>
    cases hb : backendDumps b (.vDict kvs) with
    | ok s' =>
      simp only [serialize, hb, Except.ok.injEq, Prod.mk.injEq] at h
      exact h.1.symm
    | error m => simp [serialize, hb] at h
  | vList vs =>
    cases hb : backendDumps b (.vList vs) with
    | ok s' =>
      simp only [serialize, hb, Except.ok.injEq, Prod.mk.injEq] at h
      exact h.1.symm
    | error m => simp [serialize, hb] at h
  | vNone => simp [serialize] at h
  | vOther t => simp [serialize] at h

/-! ## Field map update -/

theorem lookupRV_setRV_self (name : String) (c : PyVal) (vals : PyKVs) (v0 : PyVal)
    (h : lookupRV name vals = some v0) :
    lookupRV name (setRV name c vals) = some c := by
  match vals with
  | .nil => simp [lookupRV] at h
  | .cons k v rest =>
    by_cases hk : k = name
    · simp [lookupRV, setRV, hk]
    · simp only [lookupRV, hk, if_false] at h
      simp [setRV, lookupRV, hk, lookupRV_setRV_self name c rest v0 h]

/-! ## Attribute assignment (`__setattr__`) -/

theorem setField_unbound (sc : Schema) (b : Backend) (r : RecState) (bag : Bag)
    (name : String) (v : PyVal) (h : r.bound = false) :
    (setField sc b r bag name v).bag = bag := by
  cases hfd : lookupFd name sc with
  | none => simp [setField, hfd]
  | some td =>
    obtain ⟨t, d⟩ := td
    cases hv : validate t v with
    | error e => simp [setField, hfd, hv]
    | ok c => simp [setField, hfd, hv, h]

theorem setField_validation_err (sc : Schema) (b : Backend) (r : RecState)
    (bag : Bag) (name : String) (v : PyVal) (t : FieldType) (d : OptPy)
    (e : FieldErr) (hfd : lookupFd name sc = some (t, d))
    (hv : validate t v = .error e) :
    setField sc b r bag name v = ⟨r, bag, some (.validation [(name, e)])⟩ := by
  simp [setField, hfd, hv]

theorem setField_bound_ok (sc : Schema) (b : Backend) (r : RecState) (bag : Bag)
    (name : String) (v : PyVal) (t : FieldType) (d : OptPy) (c : PyVal)
    (k s : String) (hb : r.bound = true) (hfd : lookupFd name sc = some (t, d))
    (hv : validate t v = .ok c) (hs : serialize b name c = .ok (k, s)) :
    setField sc b r bag name v = ⟨⟨setRV name c r.vals, true⟩, setKey k s bag, none⟩ := by
  simp [setField, hfd, hv, hb, hs]

theorem setField_bound_serfail (sc : Schema) (b : Backend) (r : RecState)
    (bag : Bag) (name : String) (v : PyVal) (t : FieldType) (d : OptPy)
    (c : PyVal) (e : SerErr) (hb : r.bound = true)
    (hfd : lookupFd name sc = some (t, d)) (hv : validate t v = .ok c)
    (hs : serialize b name c = .error e) :
    setField sc b r bag name v = ⟨⟨setRV name c r.vals, true⟩, bag, some (.ser e)⟩ := by
  simp [setField, hfd, hv, hb, hs]

/-! ## The `bind` write-out loop -/

theorem writeAll_frame (b : Backend) (vals : PyKVs) (bag : Bag) (q : String)
    (h : ∀ n ∈ kvNames vals, extKey n ≠ q) :
    lookupBag q (writeAll b vals bag).1 = lookupBag q bag := by
  match vals with
  | .nil => rfl
  | .cons name v rest =>
    cases hs : serialize b name v with
    | error e => simp [writeAll, hs]
    | ok ks =>
      obtain ⟨k, s⟩ := ks
      have hk := serialize_key b name v k s hs
      have hq : extKey name ≠ q := h name (by simp [kvNames])
      have hrest : ∀ n ∈ kvNames rest, extKey n ≠ q := by
        intro n hn
        exact h n (by simp [kvNames, hn])
      simp only [writeAll, hs]
      rw [writeAll_frame b rest (setKey k s bag) q hrest, lookupBag_setKey]
      rw [hk]
      simp [hq]

theorem writeAll_lookup (b : Backend) (vals : PyKVs) (bag : Bag)
    (hser : allSer b vals = true) (hnd : (kvNames vals).Nodup)
    (hh : ∀ n ∈ kvNames vals, '-' ∉ n.data) :
    (writeAll b vals bag).2 = none ∧
    ∀ name v, lookupRV name vals = some v →
      ∃ s, serialize b name v = .ok (extKey name, s) ∧
        lookupBag (extKey name) (writeAll b vals bag).1 = some s := by
  match vals with
  | .nil =>
    refine ⟨rfl, ?_⟩
    intro name v h
    simp [lookupRV] at h
  | .cons n0 v0 rest =>
    simp only [allSer, Bool.and_eq_true] at hser
    obtain ⟨hs0, hsrest⟩ := hser
    obtain ⟨⟨k0, s0⟩, hk0⟩ : ∃ ks, serialize b n0 v0 = .ok ks := by
      cases hx : serialize b n0 v0 with
      | ok ks => exact ⟨ks, rfl⟩
      | error e => rw [hx] at hs0; simp [Except.isOk, Except.toBool] at hs0
    have hkey := serialize_key b n0 v0 k0 s0 hk0
    subst hkey
    simp only [kvNames, List.nodup_cons] at hnd
    have hh0 : '-' ∉ n0.data := hh n0 (by simp [kvNames])
    have hhrest : ∀ n ∈ kvNames rest, '-' ∉ n.data := by
      intro n hn
      exact hh n (by simp [kvNames, hn])
    have ih := writeAll_lookup b rest (setKey (extKey n0) s0 bag) hsrest hnd.2 hhrest
    refine ⟨?_, ?_⟩
    · simp only [writeAll, hk0]
      exact ih.1
    · intro name v hlu
      simp only [lookupRV] at hlu
      by_cases hn : n0 = name
      · subst hn
        simp only [if_pos rfl] at hlu
        injection hlu with hlu
        subst hlu
        refine ⟨s0, hk0, ?_⟩
        simp only [writeAll, hk0]
        have hfr : ∀ n ∈ kvNames rest, extKey n ≠ extKey n0 := by
          intro n hn
          intro hcon
          have := extKey_inj n n0 (hhrest n hn) hh0 hcon
          exact hnd.1 (this ▸ hn)
        rw [writeAll_frame b rest (setKey (extKey n0) s0 bag) (extKey n0) hfr,
          lookupBag_setKey]
        simp
      · simp only [if_neg hn] at hlu
        obtain ⟨s, hsv, hlo⟩ := ih.2 name v hlu
        refine ⟨s, hsv, ?_⟩
        simp only [writeAll, hk0]
        exact hlo

/-! ## Claim C3 — `bind` flushes the full current state -/

/-- Claim C3: for every record whose fields are all serializable (and whose
declared names are distinct Python identifiers, hence hyphen-free),
immediately after `bind(bag)` returns, the bag maps the underscore→hyphen
transform of every declared field name — not only fields mutated afterwards
— to the serialized form of that field's current value; no exception is
raised; and `bind` returns the record itself (same field values, now
bound) for chaining. -/
theorem bind_flushes_all_fields (b : Backend) (r : RecState) (bag : Bag)
    (hser : allSer b r.vals = true) (hnd : (kvNames r.vals).Nodup)
    (hh : ∀ n ∈ kvNames r.vals, '-' ∉ n.data) :
    (bindBag b r bag).1 = ⟨r.vals, true⟩ ∧
    (bindBag b r bag).2.2 = none ∧
    ∀ name v, lookupRV name r.vals = some v →
      ∃ s, serialize b name v = .ok (extKey name, s) ∧
        lookupBag (extKey name) (bindBag b r bag).2.1 = some s := by
  have hw := writeAll_lookup b r.vals bag hser hnd hh
  refine ⟨by simp [bindBag], ?_, ?_⟩
  · simp only [bindBag]
    exact hw.1
  · intro name v hlu
    obtain ⟨s, hsv, hlo⟩ := hw.2 name v hlu
    exact ⟨s, hsv, hlo⟩

theorem bind_flushes_all_fields_witness :
    ((bindBag .json ⟨toKVs [("my_key", .vFloat ⟨42, 0⟩), ("some_str", .vStr "x")], false⟩
        [("junk", "j")]).1
      = ⟨toKVs [("my_key", .vFloat ⟨42, 0⟩), ("some_str", .vStr "x")], true⟩) ∧
    ((bindBag .json ⟨toKVs [("my_key", .vFloat ⟨42, 0⟩), ("some_str", .vStr "x")], false⟩
        [("junk", "j")]).2.2 = none) ∧
    (∃ s, serialize .json "my_key" (.vFloat ⟨42, 0⟩) = .ok (extKey "my_key", s) ∧
      lookupBag (extKey "my_key")
        (bindBag .json ⟨toKVs [("my_key", .vFloat ⟨42, 0⟩), ("some_str", .vStr "x")], false⟩
          [("junk", "j")]).2.1 = some s) := by
  have h := bind_flushes_all_fields .json
    ⟨toKVs [("my_key", .vFloat ⟨42, 0⟩), ("some_str", .vStr "x")], false⟩
    [("junk", "j")] rfl (by decide) (by decide)
  exact ⟨h.1, h.2.1, h.2.2 "my_key" (.vFloat ⟨42, 0⟩) rfl⟩

/-! ## Claim C4 — write-through only while bound, and only the one key -/

/-- Claim C4: assigning a value to a declared field of an unbound record
(never bound, or after `unbind`, whose result is unbound) leaves the
external bag completely unchanged, whatever the value; assigning a value
that validates and serializes to a declared field of a bound record changes
exactly the one bag key obtained from the field name by the
underscore→hyphen transform, and no other key. -/
theorem setattr_write_through_frame :
    (∀ sc b r bag name v, r.bound = false →
      (setField sc b r bag name v).bag = bag) ∧
    (∀ r, (unbind r).bound = false) ∧
    (∀ sc b r bag name v t d c k s,
      r.bound = true → lookupFd name sc = some (t, d) → validate t v = .ok c →
      serialize b name c = .ok (k, s) →
      k = extKey name ∧
      lookupBag (extKey name) (setField sc b r bag name v).bag = some s ∧
      ∀ q, q ≠ extKey name →
        lookupBag q (setField sc b r bag name v).bag = lookupBag q bag) := by
  refine ⟨setField_unbound, fun r => rfl, ?_⟩
  intro sc b r bag name v t d c k s hb hfd hv hs
  have hk := serialize_key b name c k s hs
  subst hk
  rw [setField_bound_ok sc b r bag name v t d c (extKey name) s hb hfd hv hs]
  refine ⟨rfl, ?_, ?_⟩
  · simp [lookupBag_setKey]
  · intro q hq
    rw [lookupBag_setKey, if_neg (fun h => hq h.symm)]

theorem setattr_write_through_frame_witness :
    ((setField (toSchema [("my_field", .tStr, none)]) .json
        ⟨toKVs [("my_field", .vStr "a")], false⟩ [("other", "z")]
        "my_field" (.vStr "b")).bag = [("other", "z")]) ∧
    (unbind ⟨toKVs [("my_field", .vStr "a")], true⟩).bound = false ∧
    (lookupBag (extKey "my_field")
        (setField (toSchema [("my_field", .tStr, none)]) .json
          ⟨toKVs [("my_field", .vStr "a")], true⟩ [("other", "z")]
          "my_field" (.vStr "b")).bag = some "b") ∧
    (lookupBag "other" (setField (toSchema [("my_field", .tStr, none)]) .json
        ⟨toKVs [("my_field", .vStr "a")], true⟩ [("other", "z")]
        "my_field" (.vStr "b")).bag = some "z") := by
  have h3 := setattr_write_through_frame.2.2 (toSchema [("my_field", .tStr, none)])
    .json ⟨toKVs [("my_field", .vStr "a")], true⟩ [("other", "z")]
    "my_field" (.vStr "b") .tStr (toOpt none) (.vStr "b") "my-field" "b"
    rfl rfl rfl rfl
  refine ⟨?_, ?_, h3.2.1, ?_⟩
  · exact setattr_write_through_frame.1 (toSchema [("my_field", .tStr, none)])
      .json ⟨toKVs [("my_field", .vStr "a")], false⟩ [("other", "z")]
      "my_field" (.vStr "b") rfl
  · exact setattr_write_through_frame.2.1 ⟨toKVs [("my_field", .vStr "a")], true⟩
  · exact (h3.2.2 "other" (by decide)).trans rfl

/-! ## Claim C5 — assignment validates first; failed mutation is atomic -/

/-- Claim C5: assignment to a declared field first applies field-level
validation/coercion; when the value fails validation, a pydantic
`ValidationError` (the spec's `FieldValidationError`) is raised and both
the in-memory field map and the bag are left exactly unchanged — no
write-through occurs. -/
theorem setattr_validates_first :
    ∀ sc b r bag name v t d e,
      lookupFd name sc = some (t, d) → validate t v = .error e →
      setField sc b r bag name v = ⟨r, bag, some (.validation [(name, e)])⟩ :=
  fun sc b r bag name v t d e hfd hv =>
    setField_validation_err sc b r bag name v t d e hfd hv

theorem setattr_validates_first_witness :
    setField (toSchema [("bar", .tModel (toSchema [("baz", .tInt, none)]), none)])
        .json ⟨toKVs [("bar", .vModel (toKVs [("baz", .vInt 1)]))], true⟩
        [("bar", "\x7b\"baz\": 1\x7d")] "bar" (.vInt 1)
      = ⟨⟨toKVs [("bar", .vModel (toKVs [("baz", .vInt 1)]))], true⟩,
          [("bar", "\x7b\"baz\": 1\x7d")], some (.validation [("bar", .invalid)])⟩ :=
  setattr_validates_first (toSchema [("bar", .tModel (toSchema [("baz", .tInt, none)]), none)])
    .json ⟨toKVs [("bar", .vModel (toKVs [("baz", .vInt 1)]))], true⟩
    [("bar", "\x7b\"baz\": 1\x7d")] "bar" (.vInt 1)
    (.tModel (toSchema [("baz", .tInt, none)])) (toOpt none) .invalid rfl rfl

/-! ## Claim C10 — serialization failure is raised after the in-memory
update -/

/-- Claim C10: on a bound record, assigning a value that passes the field's
declared validation but whose coerced form is outside the serializable set
raises the serialization error only after the in-memory field was already
updated: afterwards the record holds the new value while the bag is
unchanged (still holding whatever entry it had for that key) — mutation is
not atomic with respect to serialization failures, unlike validation
failures. -/
theorem setattr_serialize_failure_not_atomic :
    ∀ sc b r bag name v t d c tn v0,
      r.bound = true → lookupFd name sc = some (t, d) → validate t v = .ok c →
      serialize b name c = .error (.notSerializable tn) →
      lookupRV name r.vals = some v0 →
      (setField sc b r bag name v).err = some (.ser (.notSerializable tn)) ∧
      lookupRV name (setField sc b r bag name v).record.vals = some c ∧
      (setField sc b r bag name v).bag = bag := by
  intro sc b r bag name v t d c tn v0 hb hfd hv hs h0
  rw [setField_bound_serfail sc b r bag name v t d c (.notSerializable tn) hb hfd hv hs]
  exact ⟨rfl, lookupRV_setRV_self name c r.vals v0 h0, rfl⟩

theorem setattr_serialize_failure_not_atomic_witness :
    ((setField (toSchema [("x", .tAny, none)]) .json ⟨toKVs [("x", .vStr "old")], true⟩
        [("x", "old")] "x" (.vOther "frozenset")).err
      = some (.ser (.notSerializable "frozenset"))) ∧
    (lookupRV "x" (setField (toSchema [("x", .tAny, none)]) .json
        ⟨toKVs [("x", .vStr "old")], true⟩ [("x", "old")] "x"
        (.vOther "frozenset")).record.vals = some (.vOther "frozenset")) ∧
    ((setField (toSchema [("x", .tAny, none)]) .json ⟨toKVs [("x", .vStr "old")], true⟩
        [("x", "old")] "x" (.vOther "frozenset")).bag = [("x", "old")]) :=
  setattr_serialize_failure_not_atomic (toSchema [("x", .tAny, none)]) .json
    ⟨toKVs [("x", .vStr "old")], true⟩ [("x", "old")] "x" (.vOther "frozenset")
    .tAny (toOpt none) (.vOther "frozenset") "frozenset" (.vStr "old")
    rfl rfl rfl rfl rfl

/-! ## Claim C9 — the underscore→hyphen transform and its injectivity -/

/-- `read`'s keyword dict is empty when none of the transformed keys is in
the bag: `read` consults only the underscore→hyphen images of the declared
names. -/
theorem buildKwargs_all_absent (b : Backend) (sc : Schema) (bag : Bag)
    (h : ∀ n ∈ schemaNames sc, lookupBag (extKey n) bag = none) :
    buildKwargs b sc bag = .ok .nil := by
  match sc with
  | .nil => rfl
  | .cons name t d rest =>
    have h0 : lookupBag (extKey name) bag = none := h name (by simp [schemaNames])
    have hrest : ∀ n ∈ schemaNames rest, lookupBag (extKey n) bag = none := by
      intro n hn
      exact h n (by simp [schemaNames, hn])
    simp only [buildKwargs, h0]
    exact buildKwargs_all_absent b rest bag hrest

/-- Claim C9: the external key used by `serialize` (hence by `bind` and
write-through) is obtained from the declared field name by replacing every
underscore with a hyphen; `read` consults exactly those transformed keys;
and the transform is injective over any set of hyphen-free names (declared
fields are Python identifiers, which never contain a hyphen), so no two
distinct declared fields collide on the same external key. -/
theorem name_transform_spec :
    (∀ name, (extKey name).data = name.data.map hyphenate) ∧
    (hyphenate '_' = '-') ∧
    (∀ c, c ≠ '_' → hyphenate c = c) ∧
    (∀ b name v k s, serialize b name v = .ok (k, s) → k = extKey name) ∧
    (∀ b sc bag, (∀ n ∈ schemaNames sc, lookupBag (extKey n) bag = none) →
      buildKwargs b sc bag = .ok .nil) ∧
    (∀ n1 n2, '-' ∉ n1.data → '-' ∉ n2.data → extKey n1 = extKey n2 → n1 = n2) := by
  refine ⟨extKey_data, rfl, ?_, serialize_key, buildKwargs_all_absent, extKey_inj⟩
  intro c hc
  simp [hyphenate, hc]

theorem name_transform_spec_witness :
    extKey "complex_property_name" = "complex-property-name" ∧
    ("a_b" : String) ≠ "ab" ∧ extKey "a_b" ≠ extKey "ab" ∧
    (buildKwargs .json (toSchema [("my_key", .tFloat, none)]) [("my_key", "1.0")]
      = .ok .nil) := by
  refine ⟨rfl, by decide, ?_, ?_⟩
  · intro hcon
    have := name_transform_spec.2.2.2.2.2 "a_b" "ab" (by decide) (by decide) hcon
    exact absurd this (by decide)
  · exact name_transform_spec.2.2.2.2.1 .json (toSchema [("my_key", .tFloat, none)])
      [("my_key", "1.0")] (by decide)

/-! ## Claims C1 and C2 — where validation failures really surface

`BaseRelationData.read` contains no `try`/`except`: a pydantic
`ValidationError` raised by `cls(**kwargs)` (and likewise a backend decode
error raised inside the dict comprehension) propagates to `read`'s caller.
The conversion of the validation failure into a data value happens one
level up, in `parse_relation_data`'s `event_wrapper`, whose
`except ValidationError` catches exactly that exception — and nothing
else, so text a non-str/int field cannot even decode (e.g. `"not-a-number"`
in a float field, which is not valid JSON) escapes the wrapper as a raised
`json.JSONDecodeError` and the handler is never invoked. -/

/-- Counterexample to claim C1 as stated: a concrete bag whose raw string
fails the declared `int` field's validation makes `read` raise (return
`.error`, the embedding of a thrown `ValidationError`) — the failure *does*
propagate out of `read` as a thrown error instead of being returned as a
`ValidationFailure` value. -/
theorem read_raises_validation_cex :
    read (toSchema [("my_int", .tInt, none)]) .json [("my-int", "abc")]
      = .error (.validation [("my_int", .invalid)]) := rfl

/-- Claim C1 as amended: for every bag whose raw strings decode but fail
field-level validation during construction, `read` raises a
`ValidationError` carrying the field failures (nothing is caught inside
`read`); the `parse_relation_data` wrapper catches precisely this
exception and hands the failure to the handler as data, so from a
decorated handler's viewpoint the result of reading a side is always
either a validated record or a `ValidationFailure` value. -/
theorem read_validation_raised_then_caught :
    (∀ sc b bag kw errs, buildKwargs b sc bag = .ok kw →
      validateModel sc kw = .error errs →
      read sc b bag = .error (.validation errs) ∧
      readSide (some (sc, b)) bag = .ok (.failure errs)) ∧
    (∀ sc b bag vals, read sc b bag = .ok vals →
      readSide (some (sc, b)) bag = .ok (.record vals)) := by
  constructor
  · intro sc b bag kw errs hkw herr
    have hread : read sc b bag = .error (.validation errs) := by
      simp [read, hkw, herr]
    exact ⟨hread, by simp [readSide, hread]⟩
  · intro sc b bag vals hread
    simp [readSide, hread]

theorem read_validation_raised_then_caught_witness :
    (read (toSchema [("my_int", .tInt, none)]) .json [("my-int", "abc")]
      = .error (.validation [("my_int", .invalid)])) ∧
    (readSide (some (toSchema [("my_int", .tInt, none)], .json)) [("my-int", "abc")]
      = .ok (.failure [("my_int", .invalid)])) ∧
    (readSide (some (toSchema [("my_int", .tInt, none)], .json)) [("my-int", "7")]
      = .ok (.record (toKVs [("my_int", .vInt 7)]))) := by
  have h1 := read_validation_raised_then_caught.1
    (toSchema [("my_int", .tInt, none)]) .json [("my-int", "abc")]
    (toKVs [("my_int", .vStr "abc")]) [("my_int", .invalid)] rfl rfl
  have h2 := read_validation_raised_then_caught.2
    (toSchema [("my_int", .tInt, none)]) .json [("my-int", "7")]
    (toKVs [("my_int", .vInt 7)]) rfl
  exact ⟨h1.1, h1.2, h2⟩

/-- `readSide` can only fail with a decode error: every `ValidationError`
is caught by the `except` block and turned into data. -/
theorem readSide_error_is_decode (m : Option (Schema × Backend)) (bag : Bag)
    (e : ReadError) (h : readSide m bag = .error e) : e = .decode := by
  match m with
  | none => simp [readSide] at h
  | some (sc, b) =>
    cases hr : read sc b bag with
    | ok vals => simp [readSide, hr] at h
    | error re =>
      cases re with
      | decode =>
        simp only [readSide, hr] at h
        injection h with h
        exact h.symm
      | validation errs => simp [readSide, hr] at h

/-- Counterexample to claim C2 as stated: with a declared float field and a
bag holding `"not-a-number"` (text that fails the declared type), the
wrapper raises the decoder's error (`.error .decode`, the embedding of an
uncaught `json.JSONDecodeError`) — it does *not* invoke the handler with a
`ValidationFailure`. -/
theorem wrapper_raises_on_undecodable_cex :
    eventWrapper (some (toSchema [("my_float", .tFloat, none)], .json)) none
      (fun _ _ _ => (0 : Nat)) ⟨[("my-float", "not-a-number")], []⟩
      = .error .decode := rfl

/-- Claim C2 as amended: the wrapper always invokes the handler when both
sides read without a decode error — passing the parsed record on success,
the caught `ValidationFailure` as data when the bag text decodes under the
backend but fails the declared field types, and `None` in place of a
record when the model type argument is `None`; the only exception that can
escape the wrapper is a backend decode error (bag text the structured
decoder rejects, e.g. a float field containing `"not-a-number"`), in which
case the handler is not invoked. -/
theorem wrapper_forwards_failures_as_data {α : Type} :
    (∀ app unit (f : Event → ParsedArg → ParsedArg → α) ev a u,
      readSide app ev.appBag = .ok a → readSide unit ev.unitBag = .ok u →
      eventWrapper app unit f ev = .ok (f ev a u)) ∧
    (∀ bag, readSide none bag = .ok .noneArg) ∧
    (∀ sc b bag vals, read sc b bag = .ok vals →
      readSide (some (sc, b)) bag = .ok (.record vals)) ∧
    (∀ sc b bag errs, read sc b bag = .error (.validation errs) →
      readSide (some (sc, b)) bag = .ok (.failure errs)) ∧
    (∀ app unit (f : Event → ParsedArg → ParsedArg → α) ev e,
      eventWrapper app unit f ev = .error e → e = .decode) := by
  refine ⟨?_, fun bag => rfl, ?_, ?_, ?_⟩
  · intro app unit f ev a u ha hu
    simp [eventWrapper, ha, hu]
  · intro sc b bag vals h
    simp [readSide, h]
  · intro sc b bag errs h
    simp [readSide, h]
  · intro app unit f ev e h
    cases ha : readSide app ev.appBag with
    | error ea =>
      simp only [eventWrapper, ha] at h
      injection h with h
      exact h ▸ readSide_error_is_decode app ev.appBag ea ha
    | ok a =>
      cases hu : readSide unit ev.unitBag with
      | error eu =>
        simp only [eventWrapper, ha, hu] at h
        injection h with h
        exact h ▸ readSide_error_is_decode unit ev.unitBag eu hu
      | ok u => simp [eventWrapper, ha, hu] at h

theorem wrapper_forwards_failures_as_data_witness :
    (eventWrapper (some (toSchema [("my_float", .tFloat, none)], .json)) none
      (fun _ a _ => a) ⟨[("my-float", "\"abc\"")], []⟩
      = .ok (.failure [("my_float", .invalid)])) ∧
    (eventWrapper (none (α := Schema × Backend)) none
      (fun _ a u => (a, u)) ⟨[("whatever", "x")], []⟩
      = .ok (.noneArg, .noneArg)) ∧
    (eventWrapper (some (toSchema [("my_float", .tFloat, none)], .json)) none
      (fun _ a _ => a) ⟨[("my-float", "1.5")], []⟩
      = .ok (.record (toKVs [("my_float", .vFloat ⟨15, 1⟩)]))) := by
  have hfail := (wrapper_forwards_failures_as_data
    (α := ParsedArg)).2.2.2.1 (toSchema [("my_float", .tFloat, none)]) .json
    [("my-float", "\"abc\"")] [("my_float", .invalid)] rfl
  have hok := (wrapper_forwards_failures_as_data (α := ParsedArg)).2.2.1
    (toSchema [("my_float", .tFloat, none)]) .json [("my-float", "1.5")]
    (toKVs [("my_float", .vFloat ⟨15, 1⟩)]) rfl
  refine ⟨?_, ?_, ?_⟩
  · exact (wrapper_forwards_failures_as_data (α := ParsedArg)).1
      (some (toSchema [("my_float", .tFloat, none)], .json)) none
      (fun _ a _ => a) ⟨[("my-float", "\"abc\"")], []⟩
      (.failure [("my_float", .invalid)]) .noneArg hfail rfl
  · exact (wrapper_forwards_failures_as_data
      (α := ParsedArg × ParsedArg)).1 none none
      (fun _ a u => (a, u)) ⟨[("whatever", "x")], []⟩ .noneArg .noneArg rfl rfl
  · exact (wrapper_forwards_failures_as_data (α := ParsedArg)).1
      (some (toSchema [("my_float", .tFloat, none)], .json)) none
      (fun _ a _ => a) ⟨[("my-float", "1.5")], []⟩
      (.record (toKVs [("my_float", .vFloat ⟨15, 1⟩)])) .noneArg hok rfl

/-! ## Claim C6 — per-field semantics of `read` -/

/-- `read` once the keyword dict is built. -/
theorem read_eq_of_kwargs (sc : Schema) (b : Backend) (bag : Bag) (kw : PyKVs)
    (h : buildKwargs b sc bag = .ok kw) :
    read sc b bag
      = match validateFields sc kw with
        | ([], vals) => .ok vals
        | (e :: es, _) => .error (.validation (e :: es)) := by
  simp only [read, h, validateModel]
  cases validateFields sc kw with
  | mk errs vals => cases errs <;> rfl

/-- A field absent from the bag contributes no keyword argument. -/
theorem buildKwargs_absent (b : Backend) (sc : Schema) (bag : Bag) (kw : PyKVs)
    (name : String) (hok : buildKwargs b sc bag = .ok kw)
    (habs : lookupBag (extKey name) bag = none) : lookupRV name kw = none := by
  match sc with
  | .nil =>
    simp only [buildKwargs] at hok
    injection hok with hok
    subst hok
    rfl
  | .cons n0 t0 d0 rest =>
    by_cases hn : n0 = name
    · subst hn
      simp only [buildKwargs, habs] at hok
      exact buildKwargs_absent b rest bag kw n0 hok habs
    · cases hb : lookupBag (extKey n0) bag with
      | none =>
        simp only [buildKwargs, hb] at hok
        exact buildKwargs_absent b rest bag kw name hok habs
      | some raw =>
        simp only [buildKwargs, hb] at hok
        by_cases hbare : bareAnn t0 = true
        · rw [if_pos hbare] at hok
          cases hrest : buildKwargs b rest bag with
          | error e => rw [hrest] at hok; cases hok
          | ok kw' =>
            rw [hrest] at hok
            injection hok with hok
            subst hok
            simp only [lookupRV, hn, if_false]
            exact buildKwargs_absent b rest bag kw' name hrest habs
        · rw [if_neg hbare] at hok
          cases hl : backendLoads b raw with
          | none => rw [hl] at hok; cases hok
          | some j =>
            rw [hl] at hok
            cases hrest : buildKwargs b rest bag with
            | error e => rw [hrest] at hok; cases hok
            | ok kw' =>
              rw [hrest] at hok
              injection hok with hok
              subst hok
              simp only [lookupRV, hn, if_false]
              exact buildKwargs_absent b rest bag kw' name hrest habs

/-- A field present in the bag contributes its keyword argument: the bare
raw string for `str`/`int` annotations, the backend-decoded value
otherwise. -/
theorem buildKwargs_present (b : Backend) (sc : Schema) (bag : Bag) (kw : PyKVs)
    (name : String) (t : FieldType) (d : OptPy) (raw : String)
    (hok : buildKwargs b sc bag = .ok kw) (hfd : lookupFd name sc = some (t, d))
    (hraw : lookupBag (extKey name) bag = some raw) :
    (bareAnn t = true → lookupRV name kw = some (.vStr raw)) ∧
    (bareAnn t = false →
      ∃ j, backendLoads b raw = some j ∧ lookupRV name kw = some j) := by
  match sc with
  | .nil => simp [lookupFd] at hfd
  | .cons n0 t0 d0 rest =>
    by_cases hn : n0 = name
    · subst hn
      simp only [lookupFd, if_pos rfl] at hfd
      injection hfd with hfd
      obtain ⟨rfl, rfl⟩ := Prod.mk.injEq .. ▸ hfd
      simp only [buildKwargs, hraw] at hok
      by_cases hbare : bareAnn t0 = true
      · rw [if_pos hbare] at hok
        cases hrest : buildKwargs b rest bag with
        | error e => rw [hrest] at hok; cases hok
        | ok kw' =>
          rw [hrest] at hok
          injection hok with hok
          subst hok
          refine ⟨fun _ => by simp [lookupRV], fun hc => ?_⟩
          rw [hbare] at hc
          cases hc
      · rw [if_neg hbare] at hok
        cases hl : backendLoads b raw with
        | none => rw [hl] at hok; cases hok
        | some j =>
          rw [hl] at hok
          cases hrest : buildKwargs b rest bag with
          | error e => rw [hrest] at hok; cases hok
          | ok kw' =>
            rw [hrest] at hok
            injection hok with hok
            subst hok
            refine ⟨fun hc => absurd hc hbare, fun _ => ⟨j, rfl, by simp [lookupRV]⟩⟩
    · simp only [lookupFd, hn, if_false] at hfd
      cases hb : lookupBag (extKey n0) bag with
      | none =>
        simp only [buildKwargs, hb] at hok
        exact buildKwargs_present b rest bag kw name t d raw hok hfd hraw
      | some raw0 =>
        simp only [buildKwargs, hb] at hok
        by_cases hbare : bareAnn t0 = true
        · rw [if_pos hbare] at hok
          cases hrest : buildKwargs b rest bag with
          | error e => rw [hrest] at hok; cases hok
          | ok kw' =>
            rw [hrest] at hok
            injection hok with hok
            subst hok
            have ih := buildKwargs_present b rest bag kw' name t d raw hrest hfd hraw
            constructor
            · intro hbt
              simp only [lookupRV, hn, if_false]
              exact ih.1 hbt
            · intro hbt
              obtain ⟨j, hj, hl⟩ := ih.2 hbt
              exact ⟨j, hj, by simp only [lookupRV, hn, if_false]; exact hl⟩
        · rw [if_neg hbare] at hok
          cases hl : backendLoads b raw0 with
          | none => rw [hl] at hok; cases hok
          | some j0 =>
            rw [hl] at hok
            cases hrest : buildKwargs b rest bag with
            | error e => rw [hrest] at hok; cases hok
            | ok kw' =>
              rw [hrest] at hok
              injection hok with hok
              subst hok
              have ih := buildKwargs_present b rest bag kw' name t d raw hrest hfd hraw
              constructor
              · intro hbt
                simp only [lookupRV, hn, if_false]
                exact ih.1 hbt
              · intro hbt
                obtain ⟨j, hj, hlk⟩ := ih.2 hbt
                exact ⟨j, hj, by simp only [lookupRV, hn, if_false]; exact hlk⟩

/-- A declared field with a default, absent from the keyword dict, is
populated with exactly its default. -/
theorem validateFields_default (sc : SchemaL) (kvs : PyKVs) (name : String)
    (t : FieldType) (dv : PyVal) (hfd : lookupFd name sc = some (t, .some dv))
    (habs : lookupRV name kvs = none) :
    lookupRV name (validateFields sc kvs).2 = some dv := by
  match sc with
  | .nil => simp [lookupFd] at hfd
  | .cons n0 t0 d0 rest =>
    by_cases hn : n0 = name
    · subst hn
      simp only [lookupFd, if_pos rfl] at hfd
      injection hfd with hfd
      obtain ⟨rfl, rfl⟩ := Prod.mk.injEq .. ▸ hfd
      rcases hvf : validateFields rest kvs with ⟨errs, vals⟩
      simp only [validateFields_cons, hvf, habs]
      simp [lookupRV]
    · simp only [lookupFd, hn, if_false] at hfd
      have ih := validateFields_default rest kvs name t dv hfd habs
      rcases hvf : validateFields rest kvs with ⟨errs, vals⟩
      rw [hvf] at ih
      simp only at ih
      rcases hlk : lookupRV n0 kvs with _ | v0
      · cases d0 with
        | none => simpa [validateFields_cons, hvf, hlk, lookupRV, hn] using ih
        | some dv0 => simpa [validateFields_cons, hvf, hlk, lookupRV, hn] using ih
      · cases hv0 : validate t0 v0 with
        | ok c0 => simpa [validateFields_cons, hvf, hlk, hv0, lookupRV, hn] using ih
        | error e0 => simpa [validateFields_cons, hvf, hlk, hv0, lookupRV, hn] using ih

/-- A required (defaultless) declared field absent from the keyword dict
produces its `missing` violation. -/
theorem validateFields_required_missing (sc : SchemaL) (kvs : PyKVs)
    (name : String) (t : FieldType) (hfd : lookupFd name sc = some (t, .none))
    (habs : lookupRV name kvs = none) :
    (name, FieldErr.missing) ∈ (validateFields sc kvs).1 := by
  match sc with
  | .nil => simp [lookupFd] at hfd
  | .cons n0 t0 d0 rest =>
    by_cases hn : n0 = name
    · subst hn
      simp only [lookupFd, if_pos rfl] at hfd
      injection hfd with hfd
      obtain ⟨rfl, rfl⟩ := Prod.mk.injEq .. ▸ hfd
      rcases hvf : validateFields rest kvs with ⟨errs, vals⟩
      simp [validateFields_cons, hvf, habs]
    · simp only [lookupFd, hn, if_false] at hfd
      have ih := validateFields_required_missing rest kvs name t hfd habs
      rcases hvf : validateFields rest kvs with ⟨errs, vals⟩
      rw [hvf] at ih
      simp only at ih
      rcases hlk : lookupRV n0 kvs with _ | v0
      · cases d0 with
        | none => simpa [validateFields_cons, hvf, hlk] using Or.inr ih
        | some dv0 => simpa [validateFields_cons, hvf, hlk] using ih
      · cases hv0 : validate t0 v0 with
        | ok c0 => simpa [validateFields_cons, hvf, hlk, hv0] using ih
        | error e0 => simpa [validateFields_cons, hvf, hlk, hv0] using Or.inr ih

/-- A declared field present in the keyword dict whose value validates ends
up in the constructed record as its coerced value. -/
theorem validateFields_present_ok (sc : SchemaL) (kvs : PyKVs) (name : String)
    (t : FieldType) (d : OptPy) (v c : PyVal)
    (hfd : lookupFd name sc = some (t, d)) (hpres : lookupRV name kvs = some v)
    (hval : validate t v = .ok c) :
    lookupRV name (validateFields sc kvs).2 = some c := by
  match sc with
  | .nil => simp [lookupFd] at hfd
  | .cons n0 t0 d0 rest =>
    by_cases hn : n0 = name
    · subst hn
      simp only [lookupFd, if_pos rfl] at hfd
      injection hfd with hfd
      obtain ⟨rfl, rfl⟩ := Prod.mk.injEq .. ▸ hfd
      rcases hvf : validateFields rest kvs with ⟨errs, vals⟩
      simp [validateFields_cons, hvf, hpres, hval, lookupRV]
    · simp only [lookupFd, hn, if_false] at hfd
      have ih := validateFields_present_ok rest kvs name t d v c hfd hpres hval
      rcases hvf : validateFields rest kvs with ⟨errs, vals⟩
      rw [hvf] at ih
      simp only at ih
      rcases hlk : lookupRV n0 kvs with _ | v0
      · cases d0 with
        | none => simpa [validateFields_cons, hvf, hlk, lookupRV, hn] using ih
        | some dv0 => simpa [validateFields_cons, hvf, hlk, lookupRV, hn] using ih
      · cases hv0 : validate t0 v0 with
        | ok c0 => simpa [validateFields_cons, hvf, hlk, hv0, lookupRV, hn] using ih
        | error e0 => simpa [validateFields_cons, hvf, hlk, hv0, lookupRV, hn] using ih

/-- Claim C6: for every declared field whose transformed key is present in
the bag, `read` takes the raw string bare (no structured decoding) exactly
when the annotation is plain `str` or `int`, and otherwise decodes it with
the structured decoder of the record type's configured backend (the
coerced result of which populates the record on success); a declared field
whose transformed key is absent is populated with its declared default; a
required (defaultless) field absent from the bag makes `read` produce a
`ValidationFailure` containing that field's missing-violation (raised as a
`ValidationError`; claim C1 records that it surfaces by raising). -/
theorem read_decodes_per_backend :
    (∀ b sc bag kw name t d raw, buildKwargs b sc bag = .ok kw →
      lookupFd name sc = some (t, d) → lookupBag (extKey name) bag = some raw →
      (bareAnn t = true → lookupRV name kw = some (.vStr raw)) ∧
      (bareAnn t = false →
        ∃ j, backendLoads b raw = some j ∧ lookupRV name kw = some j)) ∧
    (∀ sc b bag kw vals name t d j c, buildKwargs b sc bag = .ok kw →
      read sc b bag = .ok vals → lookupFd name sc = some (t, d) →
      lookupRV name kw = some j → validate t j = .ok c →
      lookupRV name vals = some c) ∧
    (∀ sc b bag vals name t dv, read sc b bag = .ok vals →
      lookupFd name sc = some (t, .some dv) →
      lookupBag (extKey name) bag = none → lookupRV name vals = some dv) ∧
    (∀ sc b bag kw name t, buildKwargs b sc bag = .ok kw →
      lookupFd name sc = some (t, .none) → lookupBag (extKey name) bag = none →
      ∃ errs, read sc b bag = .error (.validation errs) ∧
        (name, FieldErr.missing) ∈ errs) := by
  refine ⟨buildKwargs_present, ?_, ?_, ?_⟩
  · intro sc b bag kw vals name t d j c hkw hread hfd hj hc
    rw [read_eq_of_kwargs sc b bag kw hkw] at hread
    rcases hvf : validateFields sc kw with ⟨errs, vals'⟩
    rw [hvf] at hread
    cases errs with
    | cons e es => simp at hread
    | nil =>
      simp only at hread
      injection hread with hread
      subst hread
      have := validateFields_present_ok sc kw name t d j c hfd hj hc
      rw [hvf] at this
      exact this
  · intro sc b bag vals name t dv hread hfd habs
    cases hkw : buildKwargs b sc bag with
    | error e => simp [read, hkw] at hread
    | ok kw =>
      rw [read_eq_of_kwargs sc b bag kw hkw] at hread
      rcases hvf : validateFields sc kw with ⟨errs, vals'⟩
      rw [hvf] at hread
      cases errs with
      | cons e es => simp at hread
      | nil =>
        simp only at hread
        injection hread with hread
        subst hread
        have hkabs := buildKwargs_absent b sc bag kw name hkw habs
        have := validateFields_default sc kw name t dv hfd hkabs
        rw [hvf] at this
        exact this
  · intro sc b bag kw name t hkw hfd habs
    have hkabs := buildKwargs_absent b sc bag kw name hkw habs
    have hmem := validateFields_required_missing sc kw name t hfd hkabs
    rw [read_eq_of_kwargs sc b bag kw hkw]
    rcases hvf : validateFields sc kw with ⟨errs, vals'⟩
    rw [hvf] at hmem
    simp only at hmem
    cases errs with
    | nil => simp at hmem
    | cons e es => exact ⟨e :: es, rfl, hmem⟩

theorem read_decodes_per_backend_witness :
    (lookupRV "my_int"
        (toKVs [("my_int", .vStr "7"), ("my_float", .vFloat ⟨15, 1⟩)])
      = some (.vStr "7")) ∧
    (∃ j, backendLoads .json "1.5" = some j ∧
      lookupRV "my_float"
          (toKVs [("my_int", .vStr "7"), ("my_float", .vFloat ⟨15, 1⟩)])
        = some j) ∧
    (read (toSchema [("my_int", .tInt, none), ("my_float", .tFloat, none)]) .json
        [("my-int", "7"), ("my-float", "1.5")]
      = .ok (toKVs [("my_int", .vInt 7), ("my_float", .vFloat ⟨15, 1⟩)]) ∧
      lookupRV "my_int" (toKVs [("my_int", .vInt 7), ("my_float", .vFloat ⟨15, 1⟩)])
        = some (.vInt 7)) ∧
    (read (toSchema [("opt_fld", .tStr, some (.vStr "dflt"))]) .json []
      = .ok (toKVs [("opt_fld", .vStr "dflt")]) ∧
      lookupRV "opt_fld" (toKVs [("opt_fld", .vStr "dflt")]) = some (.vStr "dflt")) ∧
    (∃ errs, read (toSchema [("req_fld", .tStr, none)]) .json []
      = .error (.validation errs) ∧ (("req_fld", FieldErr.missing)) ∈ errs) := by
  have h1 := read_decodes_per_backend.1 .json
    (toSchema [("my_int", .tInt, none), ("my_float", .tFloat, none)])
    [("my-int", "7"), ("my-float", "1.5")]
    (toKVs [("my_int", .vStr "7"), ("my_float", .vFloat ⟨15, 1⟩)])
    "my_int" .tInt (toOpt none) "7" rfl rfl rfl
  have h1b := read_decodes_per_backend.1 .json
    (toSchema [("my_int", .tInt, none), ("my_float", .tFloat, none)])
    [("my-int", "7"), ("my-float", "1.5")]
    (toKVs [("my_int", .vStr "7"), ("my_float", .vFloat ⟨15, 1⟩)])
    "my_float" .tFloat (toOpt none) "1.5" rfl rfl rfl
  have h2 := read_decodes_per_backend.2.1
    (toSchema [("my_int", .tInt, none), ("my_float", .tFloat, none)]) .json
    [("my-int", "7"), ("my-float", "1.5")]
    (toKVs [("my_int", .vStr "7"), ("my_float", .vFloat ⟨15, 1⟩)])
    (toKVs [("my_int", .vInt 7), ("my_float", .vFloat ⟨15, 1⟩)])
    "my_int" .tInt (toOpt none) (.vStr "7") (.vInt 7) rfl rfl rfl rfl rfl
  have h3 := read_decodes_per_backend.2.2.1
    (toSchema [("opt_fld", .tStr, some (.vStr "dflt"))]) .json []
    (toKVs [("opt_fld", .vStr "dflt")]) "opt_fld" .tStr (.vStr "dflt") rfl rfl rfl
  have h4 := read_decodes_per_backend.2.2.2
    (toSchema [("req_fld", .tStr, none)]) .json [] .nil "req_fld" .tStr rfl rfl rfl
  exact ⟨h1.1 rfl, h1b.2 rfl, ⟨rfl, h2⟩, ⟨rfl, h3⟩, h4⟩

/-! ## Claim C8 — the serialization contract -/

/-- `validate` accepts anything for a `typing.Any` annotation. -/
theorem validate_tAny (v : PyVal) : validate .tAny v = .ok v := by
  unfold validate
  rw [show szFT .tAny + szPV v = (szPV v) + 1 by simp [szFT]; omega]
  rfl

/-- Claim C8: `serialize(field_name, value)` pairs the transformed key with
the plain string conversion for scalar values (string, integer, float), the
configured structured-encoding backend's output for nested records,
mappings and sequences, and for a value of any other type raises the
`ValueError` naming the offending type.  The failure is deferred: a record
type declaring a non-serializable-typed field is not itself an error —
constructing such a record succeeds — and the error is raised at
serialization time, when `bind` (or a bound mutation) first touches the
field. -/
theorem serialize_contract :
    (∀ b name s, serialize b name (.vStr s) = .ok (extKey name, s)) ∧
    (∀ b name n, serialize b name (.vInt n) = .ok (extKey name, intStr n)) ∧
    (∀ b name f, serialize b name (.vFloat f) = .ok (extKey name, fltStr f)) ∧
    (∀ b name fs out, backendDumps b (.vModel fs) = .ok out →
      serialize b name (.vModel fs) = .ok (extKey name, out)) ∧
    (∀ b name kvs out, backendDumps b (.vDict kvs) = .ok out →
      serialize b name (.vDict kvs) = .ok (extKey name, out)) ∧
    (∀ b name vs out, backendDumps b (.vList vs) = .ok out →
      serialize b name (.vList vs) = .ok (extKey name, out)) ∧
    (∀ b name tyn, serialize b name (.vOther tyn) = .error (.notSerializable tyn)) ∧
    (∀ b name, serialize b name .vNone = .error (.notSerializable "NoneType")) ∧
    (∀ name tyn,
      validateModel (toSchema [(name, .tAny, none)]) (toKVs [(name, .vOther tyn)])
        = .ok (toKVs [(name, .vOther tyn)])) ∧
    (∀ b name tyn bag,
      bindBag b ⟨toKVs [(name, .vOther tyn)], false⟩ bag
        = (⟨toKVs [(name, .vOther tyn)], true⟩, bag, some (.notSerializable tyn))) := by
  refine ⟨fun b name s => rfl, fun b name n => rfl, fun b name f => rfl,
    ?_, ?_, ?_, fun b name tyn => rfl, fun b name => rfl, ?_, ?_⟩
  · intro b name fs out h
    simp [serialize, h]
  · intro b name kvs out h
    simp [serialize, h]
  · intro b name vs out h
    simp [serialize, h]
  · intro name tyn
    simp [validateModel, toSchema, toKVs, toOpt, validateFields_cons,
      validateFields_nil, lookupRV, validate_tAny]
  · intro b name tyn bag
    simp [bindBag, writeAll, serialize, toKVs, PyVal.pyTy]

theorem serialize_contract_witness :
    (serialize .json "my_field" (.vStr "hello") = .ok ("my-field", "hello")) ∧
    (serialize .json "n" (.vInt (-12)) = .ok ("n", "-12")) ∧
    (serialize .json "f" (.vFloat ⟨42, 0⟩) = .ok ("f", "42.0")) ∧
    (serialize .json "bar" (.vModel (toKVs [("baz", .vInt 1)]))
      = .ok ("bar", "\x7b\"baz\": 1\x7d")) ∧
    (serialize .json "m" (.vDict (toKVs [("a", .vInt 2)])) = .ok ("m", "\x7b\"a\": 2\x7d")) ∧
    (serialize .json "l" (.vList (toPyList [.vInt 1, .vStr "x"]))
      = .ok ("l", "[1, \"x\"]")) ∧
    (serialize .json "weird" (.vOther "frozenset")
      = .error (.notSerializable "frozenset")) ∧
    (validateModel (toSchema [("weird", .tAny, none)]) (toKVs [("weird", .vOther "frozenset")])
      = .ok (toKVs [("weird", .vOther "frozenset")])) ∧
    (bindBag .json ⟨toKVs [("weird", .vOther "frozenset")], false⟩ []
      = (⟨toKVs [("weird", .vOther "frozenset")], true⟩, [],
          some (.notSerializable "frozenset"))) := by
  refine ⟨serialize_contract.1 .json "my_field" "hello",
    serialize_contract.2.1 .json "n" (-12),
    serialize_contract.2.2.1 .json "f" ⟨42, 0⟩,
    serialize_contract.2.2.2.1 .json "bar" (toKVs [("baz", .vInt 1)]) "\x7b\"baz\": 1\x7d" rfl,
    serialize_contract.2.2.2.2.1 .json "m" (toKVs [("a", .vInt 2)]) "\x7b\"a\": 2\x7d" rfl,
    serialize_contract.2.2.2.2.2.1 .json "l" (toPyList [.vInt 1, .vStr "x"]) "[1, \"x\"]" rfl,
    serialize_contract.2.2.2.2.2.2.1 .json "weird" "frozenset",
    serialize_contract.2.2.2.2.2.2.2.2.1 "weird" "frozenset",
    serialize_contract.2.2.2.2.2.2.2.2.2 .json "weird" "frozenset" []⟩

/-! ## Decimal notation: printing and reparsing -/

theorem digitChar_toNat : ∀ d, d < 10 → (digitChar d).toNat = 48 + d := by decide

theorem digVal_digitChar : ∀ d, d < 10 → digVal (digitChar d) = d := by decide

theorem isDig_digitChar : ∀ d, d < 10 → isDig (digitChar d) = true := by decide

theorem natCharsAux_eq (fuel n : Nat) (h : n ≤ fuel) :
    natCharsAux fuel n = (Nat.digits 10 n).map digitChar := by
  match fuel with
  | 0 =>
    have : n = 0 := by omega
    subst this
    simp [natCharsAux]
  | fuel + 1 =>
    by_cases hn : n = 0
    · subst hn
      simp [natCharsAux]
    · have hpos : 0 < n := Nat.pos_of_ne_zero hn
      have hdiv : n / 10 ≤ fuel := by
        have := Nat.div_lt_self hpos (by norm_num : 1 < 10)
        omega
      simp only [natCharsAux, hn, if_false]
      rw [natCharsAux_eq fuel (n / 10) hdiv,
        Nat.digits_def' (by norm_num : 1 < 10) hpos]
      simp

theorem natChars_eq (n : Nat) (hn : n ≠ 0) :
    natChars n = ((Nat.digits 10 n).map digitChar).reverse := by
  simp only [natChars, hn, if_false]
  rw [natCharsAux_eq n n le_rfl]

theorem foldr_digits_ofDigits (L : List Nat) (h : ∀ d ∈ L, d < 10) :
    L.foldr (fun d y => 10 * y + digVal (digitChar d)) 0 = Nat.ofDigits 10 L := by
  induction L with
  | nil => simp [Nat.ofDigits]
  | cons d L ih =>
    have hd : d < 10 := h d (by simp)
    have hL : ∀ d ∈ L, d < 10 := fun x hx => h x (by simp [hx])
    rw [List.foldr_cons, ih hL, digVal_digitChar d hd, Nat.ofDigits_cons]
    push_cast
    omega

theorem decVal_natChars (n : Nat) : decVal (natChars n) = n := by
  by_cases hn : n = 0
  · subst hn
    rfl
  · rw [natChars_eq n hn]
    unfold decVal
    rw [List.foldl_reverse, List.foldr_map,
      foldr_digits_ofDigits _ (fun d hd => Nat.digits_lt_base (by norm_num) hd)]
    exact_mod_cast Nat.ofDigits_digits 10 n

theorem natChars_all_digits (n : Nat) : ∀ c ∈ natChars n, isDig c = true := by
  by_cases hn : n = 0
  · subst hn
    intro c hc
    simp only [natChars, if_pos rfl] at hc
    simp at hc
    subst hc
    decide
  · rw [natChars_eq n hn]
    intro c hc
    rw [List.mem_reverse, List.mem_map] at hc
    obtain ⟨d, hd, rfl⟩ := hc
    exact isDig_digitChar d (Nat.digits_lt_base (by norm_num) hd)

theorem natChars_ne_nil (n : Nat) : natChars n ≠ [] := by
  by_cases hn : n = 0
  · subst hn
    simp [natChars]
  · rw [natChars_eq n hn]
    simp [Nat.digits_ne_nil_iff_ne_zero, hn]

/-! Spanning a block of digit characters. -/

theorem takeWhile_append_of_all (p : Char → Bool) (ds rest : List Char)
    (hall : ∀ c ∈ ds, p c = true) (hr : headNot p rest) :
    (ds ++ rest).takeWhile p = ds := by
  induction ds with
  | nil =>
    cases rest with
    | nil => rfl
    | cons c l =>
      simp only [headNot] at hr
      simp [List.takeWhile_cons, hr]
  | cons c ds ih =>
    have hc : p c = true := hall c (by simp)
    simp only [List.cons_append, List.takeWhile_cons, hc, if_true]
    rw [ih (fun x hx => hall x (by simp [hx]))]

theorem dropWhile_append_of_all (p : Char → Bool) (ds rest : List Char)
    (hall : ∀ c ∈ ds, p c = true) (hr : headNot p rest) :
    (ds ++ rest).dropWhile p = rest := by
  induction ds with
  | nil =>
    cases rest with
    | nil => rfl
    | cons c l =>
      simp only [headNot] at hr
      simp [List.dropWhile_cons, hr]
  | cons c ds ih =>
    have hc : p c = true := hall c (by simp)
    simp only [List.cons_append, List.dropWhile_cons, hc, if_true]
    exact ih (fun x hx => hall x (by simp [hx]))

theorem span_append_of_all (p : Char → Bool) (ds rest : List Char)
    (hall : ∀ c ∈ ds, p c = true) (hr : headNot p rest) :
    (ds ++ rest).span p = (ds, rest) := by
  rw [List.span_eq_take_drop, takeWhile_append_of_all p ds rest hall hr,
    dropWhile_append_of_all p ds rest hall hr]

/-! ## Number tokens: print/parse round trip -/

theorem isDig_facts (c : Char) (h : isDig c = true) :
    isWsC c = false ∧ c ≠ '-' ∧ c ≠ '.' ∧ c ≠ 'e' ∧ c ≠ 'E' ∧ c ≠ '+' ∧
      c ≠ '"' ∧ c ≠ '[' ∧ c ≠ '{' ∧ c ≠ 't' ∧ c ≠ 'f' ∧ c ≠ 'n' := by
  simp only [isDig, Bool.and_eq_true, decide_eq_true_eq] at h
  have key : ∀ x : Char, c = x → 48 ≤ x.toNat ∧ x.toNat ≤ 57 := fun x hx => hx ▸ h
  refine ⟨?_, fun hc => absurd (key _ hc) (by decide),
    fun hc => absurd (key _ hc) (by decide), fun hc => absurd (key _ hc) (by decide),
    fun hc => absurd (key _ hc) (by decide), fun hc => absurd (key _ hc) (by decide),
    fun hc => absurd (key _ hc) (by decide), fun hc => absurd (key _ hc) (by decide),
    fun hc => absurd (key _ hc) (by decide), fun hc => absurd (key _ hc) (by decide),
    fun hc => absurd (key _ hc) (by decide), fun hc => absurd (key _ hc) (by decide)⟩
  simp only [isWsC, Bool.or_eq_false_iff, decide_eq_false_iff_not]
  exact ⟨⟨⟨fun hc => absurd (key _ hc) (by decide), fun hc => absurd (key _ hc) (by decide)⟩,
    fun hc => absurd (key _ hc) (by decide)⟩, fun hc => absurd (key _ hc) (by decide)⟩

theorem pExp_none (cs : List Char)
    (h : headNot (fun c => c = 'e' || c = 'E') cs) : pExp cs = (none, cs) := by
  match cs with
  | [] => rfl
  | c :: r =>
    simp only [headNot, Bool.or_eq_false_iff, decide_eq_false_iff_not] at h
    simp only [pExp]
    split
    · rename_i r' heq
      injection heq with h1 h2
      exact absurd h1 h.1
    · rename_i r' heq
      injection heq with h1 h2
      exact absurd h1 h.2
    · rfl

theorem numBdry_headNot_dig (rest : List Char) (h : numBdry rest) :
    headNot isDig rest := by
  cases rest with
  | nil => trivial
  | cons c r => exact h.1

theorem pNumBody_digits (neg : Bool) (ds rest : List Char) (hds : ds ≠ [])
    (hall : ∀ c ∈ ds, isDig c = true) (hr : numBdry rest) :
    pNumBody neg (ds ++ rest)
      = some (.vInt (if neg then -(decVal ds : Int) else (decVal ds : Int)), rest) := by
  have hspan := span_append_of_all isDig ds rest hall (numBdry_headNot_dig rest hr)
  have hemp : ds.isEmpty = false := by
    cases ds with
    | nil => exact absurd rfl hds
    | cons c l => rfl
  simp only [pNumBody, hspan, hemp, Bool.false_eq_true, if_false]
  cases rest with
  | nil => rfl
  | cons c r =>
    obtain ⟨hd, hdot, he, hE⟩ := hr
    split
    · rename_i r' heq
      injection heq with h1 h2
      exact absurd h1 hdot
    · rename_i hne
      rw [pExp_none (c :: r) (by simp only [headNot, Bool.or_eq_false_iff,
        decide_eq_false_iff_not]; exact ⟨he, hE⟩)]

theorem pNumber_cons_not_neg (c : Char) (l : List Char) (hc : c ≠ '-') :
    pNumber (c :: l) = pNumBody false (c :: l) := by
  simp only [pNumber]
  split
  · rename_i r heq
    injection heq with h1 h2
    exact absurd h1 hc
  · rfl

theorem intChars_ne_nil (n : Int) : intChars n ≠ [] := by
  unfold intChars
  split
  · simp
  · exact natChars_ne_nil _

theorem pNumber_intChars (n : Int) (rest : List Char) (hr : numBdry rest) :
    pNumber (intChars n ++ rest) = some (.vInt n, rest) := by
  by_cases hneg : n < 0
  · simp only [intChars, hneg, if_true, List.cons_append]
    show pNumBody true (natChars n.natAbs ++ rest) = _
    rw [pNumBody_digits true (natChars n.natAbs) rest (natChars_ne_nil _)
      (natChars_all_digits _) hr, decVal_natChars]
    have : -(n.natAbs : Int) = n := by omega
    simp only [this]
    simp
  · simp only [intChars, hneg, if_false]
    obtain ⟨c, cs, hco⟩ := List.exists_cons_of_ne_nil (natChars_ne_nil n.natAbs)
    have hds : ∀ x ∈ natChars n.natAbs, isDig x = true := natChars_all_digits _
    have hcdig : isDig c = true := by
      apply hds
      rw [hco]
      simp
    rw [hco, List.cons_append,
      pNumber_cons_not_neg c (cs ++ rest) (isDig_facts c hcdig).2.1,
      show c :: (cs ++ rest) = (c :: cs) ++ rest from rfl, ← hco,
      pNumBody_digits false (natChars n.natAbs) rest (natChars_ne_nil _) hds hr,
      decVal_natChars]
    have : (n.natAbs : Int) = n := by omega
    simp [this]

theorem fracChars_length (e k : Nat) : (fracChars e k).length = e := by
  induction e generalizing k with
  | zero => rfl
  | succ e ih => simp [fracChars, ih]

theorem fracChars_all_digits (e k : Nat) (h : k < 10 ^ e) :
    ∀ c ∈ fracChars e k, isDig c = true := by
  induction e generalizing k with
  | zero => simp [fracChars]
  | succ e ih =>
    intro c hc
    simp only [fracChars, List.mem_cons] at hc
    rcases hc with hc | hc
    · subst hc
      apply isDig_digitChar
      have hp : 0 < 10 ^ e := Nat.pos_pow_of_pos e (by norm_num)
      rw [Nat.div_lt_iff_lt_mul hp]
      rw [pow_succ] at h
      omega
    · exact ih (k % 10 ^ e) (Nat.mod_lt _ (Nat.pos_pow_of_pos e (by norm_num))) c hc

theorem foldl_decVal (ds : List Char) (a : Nat) :
    ds.foldl (fun a c => 10 * a + digVal c) a = a * 10 ^ ds.length + decVal ds := by
  induction ds generalizing a with
  | nil => simp [decVal]
  | cons c cs ih =>
    show cs.foldl _ (10 * a + digVal c) = _
    rw [ih (10 * a + digVal c)]
    have hc : decVal (c :: cs) = digVal c * 10 ^ cs.length + decVal cs := by
      show cs.foldl _ (10 * 0 + digVal c) = _
      rw [ih (10 * 0 + digVal c)]
      ring
    rw [hc]
    simp [List.length_cons, pow_succ]
    ring

theorem decVal_append (ds1 ds2 : List Char) :
    decVal (ds1 ++ ds2) = decVal ds1 * 10 ^ ds2.length + decVal ds2 := by
  unfold decVal
  rw [List.foldl_append]
  exact foldl_decVal ds2 _

theorem decVal_fracChars (e k : Nat) (h : k < 10 ^ e) :
    decVal (fracChars e k) = k := by
  induction e generalizing k with
  | zero =>
    simp [pow_zero] at h
    simp [fracChars, decVal, h]
  | succ e ih =>
    have hsplit : fracChars (e + 1) k
        = [digitChar (k / 10 ^ e)] ++ fracChars e (k % 10 ^ e) := rfl
    rw [hsplit, decVal_append, fracChars_length,
      ih (k % 10 ^ e) (Nat.mod_lt _ (Nat.pos_pow_of_pos e (by norm_num)))]
    have hd : k / 10 ^ e < 10 := by
      have hp : 0 < 10 ^ e := Nat.pos_pow_of_pos e (by norm_num)
      rw [Nat.div_lt_iff_lt_mul hp]
      rw [pow_succ] at h
      omega
    have : decVal [digitChar (k / 10 ^ e)] = k / 10 ^ e := by
      show 10 * 0 + digVal (digitChar (k / 10 ^ e)) = _
      rw [digVal_digitChar _ hd]
      omega
    rw [this]
    exact Nat.div_add_mod' k (10 ^ e)

theorem canonFlt_of_canon (m : Int) (e : Nat) (h : e ≠ 0 → m % 10 ≠ 0) :
    canonFlt m e = ⟨m, e⟩ := by
  cases e with
  | zero => rfl
  | succ e => simp [canonFlt, h (Nat.succ_ne_zero e)]

theorem canonFlt_mul10 (m : Int) : canonFlt (m * 10) 1 = ⟨m, 0⟩ := by
  simp [canonFlt, Int.mul_emod_left]

theorem pNumBody_float (neg : Bool) (I F rest : List Char)
    (hI : I ≠ []) (hIall : ∀ c ∈ I, isDig c = true)
    (hF : F ≠ []) (hFall : ∀ c ∈ F, isDig c = true) (hr : numBdry rest) :
    pNumBody neg (I ++ '.' :: (F ++ rest))
      = some (.vFloat (mkFlt
          (if neg then -((decVal I * 10 ^ F.length + decVal F : Nat) : Int)
           else ((decVal I * 10 ^ F.length + decVal F : Nat) : Int))
          (F.length : Int)), rest) := by
  have hspanI := span_append_of_all isDig I ('.' :: (F ++ rest)) hIall
    (by simp only [headNot]; decide)
  have hempI : I.isEmpty = false := by
    cases I with
    | nil => exact absurd rfl hI
    | cons c l => rfl
  have hspanF := span_append_of_all isDig F rest hFall (numBdry_headNot_dig rest hr)
  have hempF : F.isEmpty = false := by
    cases F with
    | nil => exact absurd rfl hF
    | cons c l => rfl
  have hexp : pExp rest = (none, rest) := by
    apply pExp_none
    cases rest with
    | nil => trivial
    | cons c r =>
      simp only [headNot, Bool.or_eq_false_iff, decide_eq_false_iff_not]
      exact ⟨hr.2.2.1, hr.2.2.2⟩
  simp only [pNumBody, hspanI, hempI, Bool.false_eq_true, if_false, hspanF,
    hempF, hexp]

theorem pNumber_fltChars (f : Flt) (rest : List Char) (hc : f.canon = true)
    (hr : numBdry rest) :
    pNumber (fltChars f ++ rest) = some (.vFloat f, rest) := by
  obtain ⟨m, e⟩ := f
  cases e with
  | zero =>
    have hbody : ∀ neg : Bool,
        pNumBody neg (natChars m.natAbs ++ '.' :: (['0'] ++ rest))
          = some (.vFloat (mkFlt
              (if neg then -((m.natAbs * 10 : Nat) : Int) else ((m.natAbs * 10 : Nat) : Int))
              1), rest) := by
      intro neg
      rw [pNumBody_float neg (natChars m.natAbs) ['0'] rest (natChars_ne_nil _)
        (natChars_all_digits _) (by simp) (by decide) hr]
      have harg : (decVal (natChars m.natAbs) * 10 ^ (['0'] : List Char).length
          + decVal ['0'] : Nat) = m.natAbs * 10 := by
        rw [decVal_natChars]
        simp [show decVal ['0'] = 0 from by decide]
      rw [harg]
      norm_num
    by_cases hm : m < 0
    · have hshape : fltChars ⟨m, 0⟩ ++ rest
          = '-' :: (natChars m.natAbs ++ '.' :: (['0'] ++ rest)) := by
        simp [fltChars, hm]
      rw [hshape]
      show pNumBody true _ = _
      rw [hbody true]
      have h1 : -((m.natAbs * 10 : Nat) : Int) = m * 10 := by
        rw [Nat.cast_mul]
        omega
      simp only [if_true, h1]
      rw [show mkFlt (m * 10) 1 = canonFlt (m * 10) 1 from by
        simp [mkFlt]]
      rw [canonFlt_mul10]
    · have hshape : fltChars ⟨m, 0⟩ ++ rest
          = natChars m.natAbs ++ '.' :: (['0'] ++ rest) := by
        simp [fltChars, hm]
      rw [hshape]
      obtain ⟨c, cs, hco⟩ := List.exists_cons_of_ne_nil (natChars_ne_nil m.natAbs)
      have hcdig : isDig c = true := by
        apply natChars_all_digits
        rw [hco]
        simp
      rw [hco, List.cons_append, pNumber_cons_not_neg c _ (isDig_facts c hcdig).2.1,
        ← List.cons_append, ← hco, hbody false]
      have h1 : ((m.natAbs * 10 : Nat) : Int) = m * 10 := by
        rw [Nat.cast_mul]
        omega
      simp only [Bool.false_eq_true, if_false, h1]
      rw [show mkFlt (m * 10) 1 = canonFlt (m * 10) 1 from by
        simp [mkFlt]]
      rw [canonFlt_mul10]
  | succ E =>
    have hmod : m % 10 ≠ 0 := by
      simp only [Flt.canon] at hc
      rcases Bool.or_eq_true_iff.mp hc with h | h
      · simp at h
      · exact of_decide_eq_true h
    have hpow : 0 < 10 ^ (E + 1) := Nat.pos_pow_of_pos _ (by norm_num)
    have hmlt : m.natAbs % 10 ^ (E + 1) < 10 ^ (E + 1) := Nat.mod_lt _ hpow
    have hFne : fracChars (E + 1) (m.natAbs % 10 ^ (E + 1)) ≠ [] := by
      intro hcon
      have := fracChars_length (E + 1) (m.natAbs % 10 ^ (E + 1))
      rw [hcon] at this
      simp at this
    have hdm : m.natAbs / 10 ^ (E + 1) * 10 ^ (E + 1) + m.natAbs % 10 ^ (E + 1)
        = m.natAbs := by
      have key := Nat.div_add_mod m.natAbs (10 ^ (E + 1))
      rw [Nat.mul_comm (10 ^ (E + 1)) (m.natAbs / 10 ^ (E + 1))] at key
      exact key
    have hbody : ∀ neg : Bool,
        pNumBody neg (natChars (m.natAbs / 10 ^ (E + 1)) ++
            '.' :: (fracChars (E + 1) (m.natAbs % 10 ^ (E + 1)) ++ rest))
          = some (.vFloat (mkFlt
              (if neg then -((m.natAbs : Nat) : Int) else ((m.natAbs : Nat) : Int))
              ((E + 1 : Nat) : Int)), rest) := by
      intro neg
      rw [pNumBody_float neg _ _ rest (natChars_ne_nil _) (natChars_all_digits _)
        hFne (fracChars_all_digits _ _ hmlt) hr]
      rw [decVal_natChars, decVal_fracChars _ _ hmlt, fracChars_length, hdm]
    have hmk : ∀ mm : Int, mkFlt mm ((E + 1 : Nat) : Int) = canonFlt mm (E + 1) := by
      intro mm
      have : ¬ ((E + 1 : Nat) : Int) ≤ 0 := by
        push_cast
        omega
      simp [mkFlt, this]
    by_cases hm : m < 0
    · have hshape : fltChars ⟨m, E + 1⟩ ++ rest
          = '-' :: (natChars (m.natAbs / 10 ^ (E + 1)) ++
              '.' :: (fracChars (E + 1) (m.natAbs % 10 ^ (E + 1)) ++ rest)) := by
        simp [fltChars, hm]
      rw [hshape]
      show pNumBody true _ = _
      rw [hbody true]
      have h1 : -((m.natAbs : Nat) : Int) = m := by omega
      simp only [if_true, h1, hmk m, canonFlt_of_canon m (E + 1) (fun _ => hmod)]
    · have hshape : fltChars ⟨m, E + 1⟩ ++ rest
          = natChars (m.natAbs / 10 ^ (E + 1)) ++
              '.' :: (fracChars (E + 1) (m.natAbs % 10 ^ (E + 1)) ++ rest) := by
        simp [fltChars, hm]
      rw [hshape]
      obtain ⟨c, cs, hco⟩ := List.exists_cons_of_ne_nil
        (natChars_ne_nil (m.natAbs / 10 ^ (E + 1)))
      have hcdig : isDig c = true := by
        apply natChars_all_digits
        rw [hco]
        simp
      rw [hco, List.cons_append, pNumber_cons_not_neg c _ (isDig_facts c hcdig).2.1,
        ← List.cons_append, ← hco, hbody false]
      have h1 : ((m.natAbs : Nat) : Int) = m := by omega
      simp only [Bool.false_eq_true, if_false, h1, hmk m,
        canonFlt_of_canon m (E + 1) (fun _ => hmod)]

/-! ## String literals: escape/unescape round trip -/

theorem hexVal_hexChar : ∀ k, k < 16 → hexVal (hexChar k) = some k := by decide

set_option maxHeartbeats 1600000 in
theorem pStrChars_escape (s rest : List Char) :
    pStrChars (escape s ++ '"' :: rest) = some (s, rest) := by
  induction s with
  | nil =>
    show pStrChars ('"' :: rest) = _
    rfl
  | cons c cs ih =>
    show pStrChars ((escChar c ++ escape cs) ++ '"' :: rest) = _
    by_cases hq : c = '"'
    · subst hq
      rw [show escChar '"' = ['\\', '"'] from by decide]
      show pStrChars ('\\' :: '"' :: (escape cs ++ '"' :: rest)) = _
      rw [pStrChars.eq_2, if_neg (by decide), if_pos rfl, pEsc, ih]
      rfl
    · by_cases hb : c = '\\'
      · subst hb
        rw [show escChar '\\' = ['\\', '\\'] from by decide]
        show pStrChars ('\\' :: '\\' :: (escape cs ++ '"' :: rest)) = _
        rw [pStrChars.eq_2, if_neg (by decide), if_pos rfl, pEsc, ih]
        rfl
      · by_cases hc : c.toNat < 32
        · rw [show escChar c = ['\\', 'u', '0', '0', hexChar (c.toNat / 16),
            hexChar (c.toNat % 16)] from by
              simp [escChar, hq, hb, hc]]
          show pStrChars ('\\' :: 'u' :: '0' :: '0' :: hexChar (c.toNat / 16)
            :: hexChar (c.toNat % 16) :: (escape cs ++ '"' :: rest)) = _
          have hhi : hexVal (hexChar (c.toNat / 16)) = some (c.toNat / 16) :=
            hexVal_hexChar _ (by omega)
          have hlo : hexVal (hexChar (c.toNat % 16)) = some (c.toNat % 16) :=
            hexVal_hexChar _ (by omega)
          rw [pStrChars.eq_2, if_neg (by decide), if_pos rfl, pEsc]
          rw [hhi, hlo, show hexVal '0' = some 0 from by decide, ih]
          have hval : ((0 * 16 + 0) * 16 + c.toNat / 16) * 16 + c.toNat % 16
              = c.toNat := by omega
          simp only [Option.map_some]
          rw [hval, Char.ofNat_toNat]
          rfl
        · rw [show escChar c = [c] from by simp [escChar, hq, hb, hc]]
          show pStrChars (c :: (escape cs ++ '"' :: rest)) = _
          rw [pStrChars.eq_2, if_neg hq, if_neg hb, if_neg hc, ih]
          rfl

/-! ## The parser on encoder output -/

theorem stringEta (s : String) : (⟨s.data⟩ : String) = s := by
  cases s
  rfl

theorem skipWs_not_ws (c : Char) (l : List Char) (h : isWsC c = false) :
    skipWs (c :: l) = c :: l := by
  simp [skipWs, h]

theorem skipWs_cons_ws (c : Char) (l : List Char) (h : isWsC c = true) :
    skipWs (c :: l) = skipWs l := by
  simp [skipWs, h]

theorem pVal_congr (fuel : Nat) (cs1 cs2 : List Char)
    (h : skipWs cs1 = skipWs cs2) : pVal (fuel + 1) cs1 = pVal (fuel + 1) cs2 := by
  rw [pVal, pVal, h]

theorem joinComma_cons (p : List Char) (ps : List (List Char)) :
    joinComma (p :: ps) = p ++ joinRest ps := by
  induction ps generalizing p with
  | nil => simp [joinComma, joinRest]
  | cons q qs ih =>
    show p ++ ',' :: ' ' :: joinComma (q :: qs) = _
    rw [ih q]
    simp [joinRest]

/-- The first character of any `dumpsV` output. -/
theorem dumpsHeadOk (v : PyVal) (out : List Char) (hd : dumpsV v = .ok out) :
    ∃ c r, out = c :: r ∧
      (c = '"' ∨ c = '[' ∨ c = '{' ∨ c = 't' ∨ c = 'f' ∨ c = 'n' ∨ c = '-' ∨
        isDig c = true) := by
  cases v with
  | vStr s =>
    injection hd with hd
    exact ⟨'"', _, hd.symm, by simp⟩
  | vInt n =>
    injection hd with hd
    by_cases hn : n < 0
    · refine ⟨'-', natChars n.natAbs, ?_, by simp⟩
      rw [← hd]
      simp [intChars, hn]
    · obtain ⟨c, cs, hco⟩ := List.exists_cons_of_ne_nil (natChars_ne_nil n.natAbs)
      refine ⟨c, cs, ?_, ?_⟩
      · rw [← hd]
        simp [intChars, hn, hco]
      · refine Or.inr (Or.inr (Or.inr (Or.inr (Or.inr (Or.inr (Or.inr ?_))))))
        apply natChars_all_digits
        rw [hco]
        simp
  | vFloat f =>
    injection hd with hd
    by_cases hm : f.m < 0
    · by_cases he : f.e = 0
      · refine ⟨'-', natChars f.m.natAbs ++ ['.', '0'], ?_, by simp⟩
        rw [← hd]
        unfold fltChars
        simp [hm, he]
      · refine ⟨'-', natChars (f.m.natAbs / 10 ^ f.e) ++
          '.' :: fracChars f.e (f.m.natAbs % 10 ^ f.e), ?_, by simp⟩
        rw [← hd]
        unfold fltChars
        simp [hm, he]
    · by_cases he : f.e = 0
      · obtain ⟨c', cs', hco'⟩ := List.exists_cons_of_ne_nil (natChars_ne_nil f.m.natAbs)
        refine ⟨c', cs' ++ ['.', '0'], ?_, ?_⟩
        · rw [← hd]
          unfold fltChars
          simp [hm, he, hco']
        · refine Or.inr (Or.inr (Or.inr (Or.inr (Or.inr (Or.inr (Or.inr ?_))))))
          apply natChars_all_digits
          rw [hco']
          simp
      · obtain ⟨c, cs, hco⟩ :=
          List.exists_cons_of_ne_nil (natChars_ne_nil (f.m.natAbs / 10 ^ f.e))
        have hcdig : isDig c = true := by
          apply natChars_all_digits
          rw [hco]
          simp
        refine ⟨c, cs ++ '.' :: fracChars f.e (f.m.natAbs % 10 ^ f.e), ?_,
          Or.inr (Or.inr (Or.inr (Or.inr (Or.inr (Or.inr (Or.inr hcdig))))))⟩
        rw [← hd]
        unfold fltChars
        simp only [hm, if_false, he]
        rw [hco]
        simp
  | vBool b =>
    cases b <;> injection hd with hd <;> exact ⟨_, _, hd.symm, by simp⟩
  | vNone =>
    injection hd with hd
    exact ⟨'n', _, hd.symm, by simp⟩
  | vList vs =>
    simp only [dumpsV] at hd
    cases hl : dumpsL vs with
    | error e => rw [hl] at hd; cases hd
    | ok parts =>
      rw [hl] at hd
      injection hd with hd
      exact ⟨'[', _, hd.symm, by simp⟩
  | vDict kvs =>
    simp only [dumpsV] at hd
    cases hl : dumpsKV kvs with
    | error e => rw [hl] at hd; cases hd
    | ok parts =>
      rw [hl] at hd
      injection hd with hd
      exact ⟨'{', _, hd.symm, by simp⟩
  | vModel fs =>
    simp only [dumpsV] at hd
    cases hl : dumpsKV fs with
    | error e => rw [hl] at hd; cases hd
    | ok parts =>
      rw [hl] at hd
      injection hd with hd
      exact ⟨'{', _, hd.symm, by simp⟩
  | vOther t => cases hd

theorem headChar_facts (c : Char)
    (h : c = '"' ∨ c = '[' ∨ c = '{' ∨ c = 't' ∨ c = 'f' ∨ c = 'n' ∨ c = '-' ∨
      isDig c = true) :
    isWsC c = false ∧ c ≠ ']' ∧ c ≠ '}' ∧ c ≠ ',' := by
  rcases h with rfl | rfl | rfl | rfl | rfl | rfl | rfl | h
  · exact ⟨by decide, by decide, by decide, by decide⟩
  · exact ⟨by decide, by decide, by decide, by decide⟩
  · exact ⟨by decide, by decide, by decide, by decide⟩
  · exact ⟨by decide, by decide, by decide, by decide⟩
  · exact ⟨by decide, by decide, by decide, by decide⟩
  · exact ⟨by decide, by decide, by decide, by decide⟩
  · exact ⟨by decide, by decide, by decide, by decide⟩
  · have hfacts := isDig_facts c h
    simp only [isDig, Bool.and_eq_true, decide_eq_true_eq] at h
    exact ⟨hfacts.1, fun hc => absurd (hc ▸ h) (by decide),
      fun hc => absurd (hc ▸ h) (by decide), fun hc => absurd (hc ▸ h) (by decide)⟩

theorem pb_pos :
    (∀ v : PyVal, 1 ≤ pbV v) ∧ (∀ vs : PyList, 1 ≤ pbA vs) ∧
    (∀ vs : PyList, 1 ≤ pbR vs) ∧ (∀ kvs : PyKVs, 1 ≤ pbO kvs) ∧
    (∀ kvs : PyKVs, 1 ≤ pbOR kvs) := by
  refine ⟨fun v => ?_, fun vs => ?_, fun vs => ?_, fun kvs => ?_, fun kvs => ?_⟩
  · cases v <;> simp [pbV] <;> omega
  · cases vs <;> simp [pbA] <;> omega
  · cases vs <;> simp [pbR] <;> omega
  · cases kvs <;> simp [pbO] <;> omega
  · cases kvs <;> simp [pbOR] <;> omega

theorem pVal_quote (f : Nat) (r : List Char) :
    pVal (f + 1) ('"' :: r)
      = (pStrChars r).map fun p => (PyVal.vStr ⟨p.1⟩, p.2) := rfl

theorem pVal_lbrack (f : Nat) (r : List Char) :
    pVal (f + 1) ('[' :: r) = (pArr f r).map fun p => (PyVal.vList p.1, p.2) := rfl

theorem pVal_lbrace (f : Nat) (r : List Char) :
    pVal (f + 1) ('{' :: r) = (pObj f r).map fun p => (PyVal.vDict p.1, p.2) := rfl

theorem pVal_true (f : Nat) (r : List Char) :
    pVal (f + 1) ('t' :: 'r' :: 'u' :: 'e' :: r) = some (.vBool true, r) := rfl

theorem pVal_false (f : Nat) (r : List Char) :
    pVal (f + 1) ('f' :: 'a' :: 'l' :: 's' :: 'e' :: r) = some (.vBool false, r) := rfl

theorem pVal_null (f : Nat) (r : List Char) :
    pVal (f + 1) ('n' :: 'u' :: 'l' :: 'l' :: r) = some (.vNone, r) := rfl

theorem pArr_rbrack (f : Nat) (r : List Char) :
    pArr (f + 1) (']' :: r) = some (.nil, r) := rfl

theorem pArrRest_rbrack (f : Nat) (r : List Char) :
    pArrRest (f + 1) (']' :: r) = some (.nil, r) := rfl

theorem pArrRest_comma (f : Nat) (r : List Char) :
    pArrRest (f + 1) (',' :: r)
      = (pVal f r).bind fun vr =>
          (pArrRest f vr.2).bind fun pr => some (.cons vr.1 pr.1, pr.2) := rfl

theorem pObj_rbrace (f : Nat) (r : List Char) :
    pObj (f + 1) ('}' :: r) = some (.nil, r) := rfl

theorem pObjRest_rbrace (f : Nat) (r : List Char) :
    pObjRest (f + 1) ('}' :: r) = some (.nil, r) := rfl

theorem pObj_quote (f : Nat) (r : List Char) :
    pObj (f + 1) ('"' :: r)
      = (pStrChars r).bind fun kr =>
          match skipWs kr.2 with
          | ':' :: r2 =>
            (pVal f r2).bind fun vr =>
              (pObjRest f vr.2).bind fun pr =>
                some (.cons ⟨kr.1⟩ vr.1 pr.1, pr.2)
          | _ => none := rfl

theorem pObjRest_comma (f : Nat) (r : List Char) :
    pObjRest (f + 1) (',' :: r)
      = match skipWs r with
        | '"' :: r1 =>
          (pStrChars r1).bind fun kr =>
            match skipWs kr.2 with
            | ':' :: r3 =>
              (pVal f r3).bind fun vr =>
                (pObjRest f vr.2).bind fun pr =>
                  some (.cons ⟨kr.1⟩ vr.1 pr.1, pr.2)
            | _ => none
        | _ => none := rfl

theorem pVal_scalar (fuel : Nat) (c : Char) (r : List Char)
    (hws : isWsC c = false) (h1 : c ≠ '"') (h2 : c ≠ '[') (h3 : c ≠ '{')
    (h4 : c ≠ 't') (h5 : c ≠ 'f') (h6 : c ≠ 'n') :
    pVal (fuel + 1) (c :: r)
      = if isDig c || c = '-' then pNumber (c :: r) else none := by
  rw [pVal, skipWs_not_ws c r hws]
  split
  · rename_i r' heq
    injection heq with ha hb
    exact absurd ha h1
  · rename_i r' heq
    injection heq with ha hb
    exact absurd ha h2
  · rename_i r' heq
    injection heq with ha hb
    exact absurd ha h3
  · rename_i r' heq
    injection heq with ha hb
    exact absurd ha h4
  · rename_i r' heq
    injection heq with ha hb
    exact absurd ha h5
  · rename_i r' heq
    injection heq with ha hb
    exact absurd ha h6
  · rename_i c' r' heq
    injection heq with ha hb
    subst ha hb
    rfl
  · rename_i heq
    cases heq

theorem pArr_cons_head (fuel : Nat) (c : Char) (r : List Char)
    (hws : isWsC c = false) (hc : c ≠ ']') :
    pArr (fuel + 1) (c :: r)
      = (pVal fuel (c :: r)).bind fun vr =>
          (pArrRest fuel vr.2).bind fun pr => some (.cons vr.1 pr.1, pr.2) := by
  rw [pArr, skipWs_not_ws c r hws]
  split
  · rename_i r' heq
    injection heq with ha hb
    exact absurd ha hc
  · rfl

theorem intChars_head (n : Int) (c : Char) (cs : List Char)
    (h : intChars n = c :: cs) : c = '-' ∨ isDig c = true := by
  by_cases hn : n < 0
  · simp only [intChars, hn, if_true] at h
    injection h with h1 h2
    exact Or.inl h1.symm
  · simp only [intChars, hn, if_false] at h
    refine Or.inr ?_
    apply natChars_all_digits
    rw [h]
    simp

theorem fltChars_head (flt : Flt) (c : Char) (cs : List Char)
    (h : fltChars flt = c :: cs) : c = '-' ∨ isDig c = true := by
  by_cases hm : flt.m < 0
  · unfold fltChars at h
    by_cases he : flt.e = 0 <;> simp only [hm, if_true, he, if_false] at h <;>
      [skip; skip] <;> first
        | (simp only [List.cons_append] at h
           injection h with h1 h2
           exact Or.inl h1.symm)
  · refine Or.inr ?_
    unfold fltChars at h
    by_cases he : flt.e = 0
    · simp only [hm, if_false, he, if_true, List.nil_append] at h
      obtain ⟨c', cs', hco⟩ := List.exists_cons_of_ne_nil (natChars_ne_nil flt.m.natAbs)
      rw [hco] at h
      injection h with h1 h2
      apply natChars_all_digits
      rw [hco, ← h1]
      simp
    · simp only [hm, if_false, he, List.nil_append] at h
      obtain ⟨c', cs', hco⟩ :=
        List.exists_cons_of_ne_nil (natChars_ne_nil (flt.m.natAbs / 10 ^ flt.e))
      rw [hco] at h
      injection h with h1 h2
      apply natChars_all_digits
      rw [hco, ← h1]
      simp

theorem numHead_facts (c : Char) (h : c = '-' ∨ isDig c = true) :
    isWsC c = false ∧ c ≠ '"' ∧ c ≠ '[' ∧ c ≠ '{' ∧ c ≠ 't' ∧ c ≠ 'f' ∧ c ≠ 'n' ∧
      (isDig c || c = '-') = true := by
  rcases h with rfl | h
  · exact ⟨by decide, by decide, by decide, by decide, by decide, by decide,
      by decide, by simp⟩
  · have hf := isDig_facts c h
    have hgen : ∀ x : Char, ¬ (48 ≤ x.toNat ∧ x.toNat ≤ 57) → c ≠ x := by
      intro x hx hc
      subst hc
      simp only [isDig, Bool.and_eq_true, decide_eq_true_eq] at h
      exact hx h
    exact ⟨hf.1, hgen _ (by decide), hgen _ (by decide), hgen _ (by decide),
      hgen _ (by decide), hgen _ (by decide), hgen _ (by decide), by simp [h]⟩

theorem fltChars_ne_nil (flt : Flt) : fltChars flt ≠ [] := by
  unfold fltChars
  by_cases hm : flt.m < 0 <;> by_cases he : flt.e = 0 <;>
    simp [hm, he, natChars_ne_nil]

theorem pObjRest_comma_key (f : Nat) (r1 : List Char) :
    pObjRest (f + 1) (',' :: ' ' :: '"' :: r1) = pObj (f + 1) ('"' :: r1) := by
  rw [pObjRest_comma, skipWs_cons_ws ' ' _ (by decide),
    skipWs_not_ws '"' _ (by decide), pObj_quote]
  rfl

theorem pObj_entry (f : Nat) (k : String) (p X : List Char) :
    pObj (f + 1) ('"' :: (escape k.data ++ '"' :: (':' :: ' ' :: (p ++ X))))
      = (pVal f (' ' :: (p ++ X))).bind fun vr =>
          (pObjRest f vr.2).bind fun pr =>
            some (.cons k vr.1 pr.1, pr.2) := by
  rw [pObj_quote, pStrChars_escape]
  rfl

theorem numBdry_joinRest_close (ps : List (List Char)) (close : Char)
    (rest : List Char) (hc : close = ']' ∨ close = '}') :
    numBdry (joinRest ps ++ close :: rest) := by
  cases ps with
  | nil =>
    show numBdry (close :: rest)
    rcases hc with rfl | rfl
    · exact ⟨by decide, by decide, by decide, by decide⟩
    · exact ⟨by decide, by decide, by decide, by decide⟩
  | cons p ps =>
    show numBdry (',' :: _)
    exact ⟨by decide, by decide, by decide, by decide⟩

/-! ## The parser recovers every canonical encodable value from its encoding

Mutual structural induction over the value family: parsing the encoder's
output (followed by any input that cannot extend a number token) yields
exactly the `dict()`-image of the value, leaving the trailing input. -/

mutual

theorem pVal_dumpsV (v : PyVal) (fuel : Nat) (out rest : List Char)
    (hd : dumpsV v = .ok out) (hcv : canonV v = true) (hf : pbV v ≤ fuel)
    (hr : numBdry rest) :
    pVal fuel (out ++ rest) = some (toDictV v, rest) := by
  obtain ⟨f, rfl⟩ : ∃ f, fuel = f + 1 :=
    ⟨fuel - 1, by have h1 := pb_pos.1 v; omega⟩
  cases v with
  | vStr s =>
    injection hd with hd
    subst hd
    rw [show quoteChars s ++ rest = '"' :: (escape s.data ++ '"' :: rest) from by
      simp [quoteChars],
      pVal_quote, pStrChars_escape]
    rfl
  | vInt n =>
    injection hd with hd
    subst hd
    obtain ⟨c, cs, hco⟩ := List.exists_cons_of_ne_nil (intChars_ne_nil n)
    obtain ⟨hws, h1, h2, h3, h4, h5, h6, hcond⟩ :=
      numHead_facts c (intChars_head n c cs hco)
    rw [hco, List.cons_append, pVal_scalar f c (cs ++ rest) hws h1 h2 h3 h4 h5 h6,
      if_pos hcond, ← List.cons_append, ← hco, pNumber_intChars n rest hr]
    rfl
  | vFloat flt =>
    injection hd with hd
    subst hd
    obtain ⟨c, cs, hco⟩ := List.exists_cons_of_ne_nil (fltChars_ne_nil flt)
    obtain ⟨hws, h1, h2, h3, h4, h5, h6, hcond⟩ :=
      numHead_facts c (fltChars_head flt c cs hco)
    have hcanon : flt.canon = true := by simpa [canonV] using hcv
    rw [hco, List.cons_append, pVal_scalar f c (cs ++ rest) hws h1 h2 h3 h4 h5 h6,
      if_pos hcond, ← List.cons_append, ← hco, pNumber_fltChars flt rest hcanon hr]
    rfl
  | vBool b =>
    cases b with
    | false =>
      injection hd with hd
      subst hd
      show pVal (f + 1) ('f' :: 'a' :: 'l' :: 's' :: 'e' :: rest)
        = some (toDictV (.vBool false), rest)
      rw [pVal_false]
      rfl
    | true =>
      injection hd with hd
      subst hd
      show pVal (f + 1) ('t' :: 'r' :: 'u' :: 'e' :: rest)
        = some (toDictV (.vBool true), rest)
      rw [pVal_true]
      rfl
  | vNone =>
    injection hd with hd
    subst hd
    rw [show ("null".data ++ rest) = 'n' :: 'u' :: 'l' :: 'l' :: rest from rfl,
      pVal_null]
    rfl
  | vList vs =>
    simp only [dumpsV] at hd
    cases hdl : dumpsL vs with
    | error e => rw [hdl] at hd; cases hd
    | ok parts =>
      rw [hdl] at hd
      injection hd with hd
      subst hd
      have hcl : canonL vs = true := by simpa [canonV] using hcv
      have hfa : pbA vs ≤ f := by simp only [pbV] at hf; omega
      rw [List.cons_append, List.append_assoc, List.singleton_append, pVal_lbrack,
        pArr_dumpsL vs f parts rest hdl hcl hfa]
      rfl
  | vDict kvs =>
    simp only [dumpsV] at hd
    cases hdl : dumpsKV kvs with
    | error e => rw [hdl] at hd; cases hd
    | ok parts =>
      rw [hdl] at hd
      injection hd with hd
      subst hd
      have hck : canonKV kvs = true := by simpa [canonV] using hcv
      have hfo : pbO kvs ≤ f := by simp only [pbV] at hf; omega
      rw [List.cons_append, List.append_assoc, List.singleton_append, pVal_lbrace,
        pObj_dumpsKV kvs f parts rest hdl hck hfo]
      rfl
  | vModel fs =>
    simp only [dumpsV] at hd
    cases hdl : dumpsKV fs with
    | error e => rw [hdl] at hd; cases hd
    | ok parts =>
      rw [hdl] at hd
      injection hd with hd
      subst hd
      have hck : canonKV fs = true := by simpa [canonV] using hcv
      have hfo : pbO fs ≤ f := by simp only [pbV] at hf; omega
      rw [List.cons_append, List.append_assoc, List.singleton_append, pVal_lbrace,
        pObj_dumpsKV fs f parts rest hdl hck hfo]
      rfl
  | vOther t => cases hd

theorem pArr_dumpsL (vs : PyList) (fuel : Nat) (parts : List (List Char))
    (rest : List Char) (hd : dumpsL vs = .ok parts) (hcv : canonL vs = true)
    (hf : pbA vs ≤ fuel) :
    pArr fuel (joinComma parts ++ ']' :: rest) = some (toDictL vs, rest) := by
  obtain ⟨f, rfl⟩ : ∃ f, fuel = f + 1 :=
    ⟨fuel - 1, by have h1 := pb_pos.2.1 vs; omega⟩
  cases vs with
  | nil =>
    injection hd with hd
    subst hd
    rw [show joinComma [] ++ ']' :: rest = ']' :: rest from rfl, pArr_rbrack]
    rfl
  | cons v vs' =>
    simp only [dumpsL] at hd
    cases hdv : dumpsV v with
    | error e => rw [hdv] at hd; cases hd
    | ok p =>
      rw [hdv] at hd
      cases hdl : dumpsL vs' with
      | error e => rw [hdl] at hd; cases hd
      | ok ps =>
        rw [hdl] at hd
        injection hd with hd
        subst hd
        simp only [canonL, Bool.and_eq_true] at hcv
        have hfv : pbV v ≤ f := by simp only [pbA] at hf; omega
        have hfr : pbR vs' ≤ f := by simp only [pbA] at hf; omega
        obtain ⟨c, r0, hp, hclass⟩ := dumpsHeadOk v p hdv
        obtain ⟨hws, hne1, hne2, hne3⟩ := headChar_facts c hclass
        rw [joinComma_cons, List.append_assoc, hp, List.cons_append,
          pArr_cons_head f c _ hws hne1, ← List.cons_append, ← hp,
          pVal_dumpsV v f p _ hdv hcv.1 hfv
            (numBdry_joinRest_close ps ']' rest (Or.inl rfl))]
        simp only [Option.bind]
        rw [pArrRest_dumpsL vs' f ps rest hdl hcv.2 hfr]
        rfl

theorem pArrRest_dumpsL (vs : PyList) (fuel : Nat) (parts : List (List Char))
    (rest : List Char) (hd : dumpsL vs = .ok parts) (hcv : canonL vs = true)
    (hf : pbR vs ≤ fuel) :
    pArrRest fuel (joinRest parts ++ ']' :: rest) = some (toDictL vs, rest) := by
  obtain ⟨f, rfl⟩ : ∃ f, fuel = f + 1 :=
    ⟨fuel - 1, by have h1 := pb_pos.2.2.1 vs; omega⟩
  cases vs with
  | nil =>
    injection hd with hd
    subst hd
    rw [show joinRest [] ++ ']' :: rest = ']' :: rest from rfl, pArrRest_rbrack]
    rfl
  | cons v vs' =>
    simp only [dumpsL] at hd
    cases hdv : dumpsV v with
    | error e => rw [hdv] at hd; cases hd
    | ok p =>
      rw [hdv] at hd
      cases hdl : dumpsL vs' with
      | error e => rw [hdl] at hd; cases hd
      | ok ps =>
        rw [hdl] at hd
        injection hd with hd
        subst hd
        simp only [canonL, Bool.and_eq_true] at hcv
        obtain ⟨g, rfl⟩ : ∃ g, f = g + 1 := by
          refine ⟨f - 1, ?_⟩
          have h1 := pb_pos.1 v
          have h2 := pb_pos.2.2.1 vs'
          simp only [pbR] at hf
          omega
        have hfv : pbV v ≤ g + 1 := by simp only [pbR] at hf; omega
        have hfr : pbR vs' ≤ g + 1 := by
          have h1 := pb_pos.1 v
          simp only [pbR] at hf
          omega
        rw [show joinRest (p :: ps) ++ ']' :: rest
            = ',' :: ' ' :: (p ++ (joinRest ps ++ ']' :: rest)) from by
          simp [joinRest],
          pArrRest_comma,
          pVal_congr g _ _ (skipWs_cons_ws ' ' _ (by decide)),
          pVal_dumpsV v (g + 1) p _ hdv hcv.1 hfv
            (numBdry_joinRest_close ps ']' rest (Or.inl rfl))]
        simp only [Option.bind]
        rw [pArrRest_dumpsL vs' (g + 1) ps rest hdl hcv.2 hfr]
        rfl

theorem pObj_dumpsKV (kvs : PyKVs) (fuel : Nat) (parts : List (List Char))
    (rest : List Char) (hd : dumpsKV kvs = .ok parts) (hcv : canonKV kvs = true)
    (hf : pbO kvs ≤ fuel) :
    pObj fuel (joinComma parts ++ '}' :: rest) = some (toDictKV kvs, rest) := by
  obtain ⟨f, rfl⟩ : ∃ f, fuel = f + 1 :=
    ⟨fuel - 1, by have h1 := pb_pos.2.2.2.1 kvs; omega⟩
  cases kvs with
  | nil =>
    injection hd with hd
    subst hd
    rw [show joinComma [] ++ '}' :: rest = '}' :: rest from rfl, pObj_rbrace]
    rfl
  | cons k v kvs' =>
    simp only [dumpsKV] at hd
    cases hdv : dumpsV v with
    | error e => rw [hdv] at hd; cases hd
    | ok p =>
      rw [hdv] at hd
      cases hdl : dumpsKV kvs' with
      | error e => rw [hdl] at hd; cases hd
      | ok ps =>
        rw [hdl] at hd
        injection hd with hd
        subst hd
        simp only [canonKV, Bool.and_eq_true] at hcv
        obtain ⟨g, rfl⟩ : ∃ g, f = g + 1 := by
          refine ⟨f - 1, ?_⟩
          have h1 := pb_pos.1 v
          have h2 := pb_pos.2.2.2.2 kvs'
          simp only [pbO] at hf
          omega
        have hfv : pbV v ≤ g + 1 := by simp only [pbO] at hf; omega
        have hfo : pbOR kvs' ≤ g + 1 := by
          have h1 := pb_pos.1 v
          simp only [pbO] at hf
          omega
        rw [joinComma_cons, List.append_assoc,
          show (quoteChars k ++ ':' :: ' ' :: p) ++ (joinRest ps ++ '}' :: rest)
            = '"' :: (escape k.data ++ '"' ::
                (':' :: ' ' :: (p ++ (joinRest ps ++ '}' :: rest)))) from by
            simp [quoteChars],
          pObj_entry (g + 1) k p _,
          pVal_congr g _ _ (skipWs_cons_ws ' ' _ (by decide)),
          pVal_dumpsV v (g + 1) p _ hdv hcv.1 hfv
            (numBdry_joinRest_close ps '}' rest (Or.inr rfl))]
        simp only [Option.bind]
        rw [pObjRest_dumpsKV kvs' (g + 1) ps rest hdl hcv.2 hfo]
        rfl

theorem pObjRest_dumpsKV (kvs : PyKVs) (fuel : Nat) (parts : List (List Char))
    (rest : List Char) (hd : dumpsKV kvs = .ok parts) (hcv : canonKV kvs = true)
    (hf : pbOR kvs ≤ fuel) :
    pObjRest fuel (joinRest parts ++ '}' :: rest) = some (toDictKV kvs, rest) := by
  obtain ⟨f, rfl⟩ : ∃ f, fuel = f + 1 :=
    ⟨fuel - 1, by have h1 := pb_pos.2.2.2.2 kvs; omega⟩
  cases kvs with
  | nil =>
    injection hd with hd
    subst hd
    rw [show joinRest [] ++ '}' :: rest = '}' :: rest from rfl, pObjRest_rbrace]
    rfl
  | cons k v kvs' =>
    simp only [dumpsKV] at hd
    cases hdv : dumpsV v with
    | error e => rw [hdv] at hd; cases hd
    | ok p =>
      rw [hdv] at hd
      cases hdl : dumpsKV kvs' with
      | error e => rw [hdl] at hd; cases hd
      | ok ps =>
        rw [hdl] at hd
        injection hd with hd
        subst hd
        simp only [canonKV, Bool.and_eq_true] at hcv
        obtain ⟨g, rfl⟩ : ∃ g, f = g + 1 := by
          refine ⟨f - 1, ?_⟩
          have h1 := pb_pos.1 v
          have h2 := pb_pos.2.2.2.2 kvs'
          simp only [pbOR] at hf
          omega
        have hfv : pbV v ≤ g + 1 := by simp only [pbOR] at hf; omega
        have hfo : pbOR kvs' ≤ g + 1 := by
          have h1 := pb_pos.1 v
          simp only [pbOR] at hf
          omega
        rw [show joinRest ((quoteChars k ++ ':' :: ' ' :: p) :: ps) ++ '}' :: rest
            = ',' :: ' ' :: '"' :: (escape k.data ++ '"' ::
                (':' :: ' ' :: (p ++ (joinRest ps ++ '}' :: rest)))) from by
            simp [joinRest, quoteChars],
          pObjRest_comma_key (g + 1) _,
          pObj_entry (g + 1) k p _,
          pVal_congr g _ _ (skipWs_cons_ws ' ' _ (by decide)),
          pVal_dumpsV v (g + 1) p _ hdv hcv.1 hfv
            (numBdry_joinRest_close ps '}' rest (Or.inr rfl))]
        simp only [Option.bind]
        rw [pObjRest_dumpsKV kvs' (g + 1) ps rest hdl hcv.2 hfo]
        rfl

end

/-! ## The fuel `jsonLoads` supplies is always adequate for encoder output -/

mutual

theorem pbV_dumps (v : PyVal) (out : List Char) (hd : dumpsV v = .ok out) :
    pbV v ≤ 2 * out.length := by
  cases v with
  | vStr s =>
    obtain ⟨c, r, hp, h2⟩ := dumpsHeadOk (.vStr s) out hd
    subst hp
    simp only [pbV, List.length_cons]
    omega
  | vInt n =>
    obtain ⟨c, r, hp, h2⟩ := dumpsHeadOk (.vInt n) out hd
    subst hp
    simp only [pbV, List.length_cons]
    omega
  | vFloat flt =>
    obtain ⟨c, r, hp, h2⟩ := dumpsHeadOk (.vFloat flt) out hd
    subst hp
    simp only [pbV, List.length_cons]
    omega
  | vBool b =>
    obtain ⟨c, r, hp, h2⟩ := dumpsHeadOk (.vBool b) out hd
    subst hp
    simp only [pbV, List.length_cons]
    omega
  | vNone =>
    obtain ⟨c, r, hp, h2⟩ := dumpsHeadOk .vNone out hd
    subst hp
    simp only [pbV, List.length_cons]
    omega
  | vList vs =>
    simp only [dumpsV] at hd
    cases hdl : dumpsL vs with
    | error e => rw [hdl] at hd; cases hd
    | ok parts =>
      rw [hdl] at hd
      injection hd with hd
      subst hd
      have ih := pbA_dumps vs parts hdl
      simp only [pbV, List.length_cons, List.length_append]
      omega
  | vDict kvs =>
    simp only [dumpsV] at hd
    cases hdl : dumpsKV kvs with
    | error e => rw [hdl] at hd; cases hd
    | ok parts =>
      rw [hdl] at hd
      injection hd with hd
      subst hd
      have ih := pbO_dumps kvs parts hdl
      simp only [pbV, List.length_cons, List.length_append]
      omega
  | vModel fs =>
    simp only [dumpsV] at hd
    cases hdl : dumpsKV fs with
    | error e => rw [hdl] at hd; cases hd
    | ok parts =>
      rw [hdl] at hd
      injection hd with hd
      subst hd
      have ih := pbO_dumps fs parts hdl
      simp only [pbV, List.length_cons, List.length_append]
      omega
  | vOther t => cases hd

theorem pbA_dumps (vs : PyList) (parts : List (List Char))
    (hd : dumpsL vs = .ok parts) : pbA vs ≤ 2 * (joinComma parts).length + 3 := by
  cases vs with
  | nil =>
    injection hd with hd
    subst hd
    simp [pbA]
  | cons v vs' =>
    simp only [dumpsL] at hd
    cases hdv : dumpsV v with
    | error e => rw [hdv] at hd; cases hd
    | ok p =>
      rw [hdv] at hd
      cases hdl : dumpsL vs' with
      | error e => rw [hdl] at hd; cases hd
      | ok ps =>
        rw [hdl] at hd
        injection hd with hd
        subst hd
        have ih1 := pbV_dumps v p hdv
        have ih2 := pbR_dumps vs' ps hdl
        rw [joinComma_cons]
        simp only [pbA, List.length_append]
        omega

theorem pbR_dumps (vs : PyList) (parts : List (List Char))
    (hd : dumpsL vs = .ok parts) : pbR vs ≤ 2 * (joinRest parts).length + 2 := by
  cases vs with
  | nil =>
    injection hd with hd
    subst hd
    simp [pbR]
  | cons v vs' =>
    simp only [dumpsL] at hd
    cases hdv : dumpsV v with
    | error e => rw [hdv] at hd; cases hd
    | ok p =>
      rw [hdv] at hd
      cases hdl : dumpsL vs' with
      | error e => rw [hdl] at hd; cases hd
      | ok ps =>
        rw [hdl] at hd
        injection hd with hd
        subst hd
        have ih1 := pbV_dumps v p hdv
        have ih2 := pbR_dumps vs' ps hdl
        simp only [pbR, joinRest, List.length_cons, List.length_append]
        omega

theorem pbO_dumps (kvs : PyKVs) (parts : List (List Char))
    (hd : dumpsKV kvs = .ok parts) : pbO kvs ≤ 2 * (joinComma parts).length + 3 := by
  cases kvs with
  | nil =>
    injection hd with hd
    subst hd
    simp [pbO]
  | cons k v kvs' =>
    simp only [dumpsKV] at hd
    cases hdv : dumpsV v with
    | error e => rw [hdv] at hd; cases hd
    | ok p =>
      rw [hdv] at hd
      cases hdl : dumpsKV kvs' with
      | error e => rw [hdl] at hd; cases hd
      | ok ps =>
        rw [hdl] at hd
        injection hd with hd
        subst hd
        have ih1 := pbV_dumps v p hdv
        have ih2 := pbOR_dumps kvs' ps hdl
        rw [joinComma_cons]
        simp only [pbO, List.length_append, quoteChars, List.length_cons]
        omega

theorem pbOR_dumps (kvs : PyKVs) (parts : List (List Char))
    (hd : dumpsKV kvs = .ok parts) : pbOR kvs ≤ 2 * (joinRest parts).length + 2 := by
  cases kvs with
  | nil =>
    injection hd with hd
    subst hd
    simp [pbOR]
  | cons k v kvs' =>
    simp only [dumpsKV] at hd
    cases hdv : dumpsV v with
    | error e => rw [hdv] at hd; cases hd
    | ok p =>
      rw [hdv] at hd
      cases hdl : dumpsKV kvs' with
      | error e => rw [hdl] at hd; cases hd
      | ok ps =>
        rw [hdl] at hd
        injection hd with hd
        subst hd
        have ih1 := pbV_dumps v p hdv
        have ih2 := pbOR_dumps kvs' ps hdl
        simp only [pbOR, joinRest, List.length_cons, List.length_append,
          quoteChars]
        omega

end

/-- `json.loads` inverts `json.dumps` on every canonical encodable value,
up to `dict()`-flattening of nested models. -/
theorem jsonLoads_jsonDumps (v : PyVal) (s : String) (hcv : canonV v = true)
    (hd : jsonDumps v = .ok s) : jsonLoads s = some (toDictV v) := by
  cases hdv : dumpsV v with
  | error e =>
    rw [jsonDumps, hdv] at hd
    cases hd
  | ok out =>
    rw [jsonDumps, hdv] at hd
    injection hd with hd
    subst hd
    have hfuel : pbV v ≤ 2 * (String.mk out).length + 3 := by
      have h1 := pbV_dumps v out hdv
      have hlen : (String.mk out).length = out.length := rfl
      omega
    have hp : pVal (2 * (String.mk out).length + 4) (String.mk out).data
        = some (toDictV v, []) := by
      have h2 := pVal_dumpsV v (2 * (String.mk out).length + 3 + 1) out []
        hdv hcv (by omega) trivial
      simp only [List.append_nil] at h2
      exact h2
    rw [jsonLoads, hp]
    rfl

/-- Python `int(str(n))` recovers `n`. -/
theorem pyIntParse_intStr (n : Int) : pyIntParse (intStr n) = some n := by
  have hisEmpty : (natChars n.natAbs).isEmpty = false := by
    cases hco : natChars n.natAbs with
    | nil => exact absurd hco (natChars_ne_nil _)
    | cons c cs => rfl
  have hall : (natChars n.natAbs).all isDig = true :=
    List.all_eq_true.mpr (natChars_all_digits _)
  by_cases hn : n < 0
  · have hds : intChars n = '-' :: natChars n.natAbs := by
      simp [intChars, hn]
    rw [show intStr n = ⟨'-' :: natChars n.natAbs⟩ from congrArg String.mk hds]
    show (if (natChars n.natAbs).isEmpty || !((natChars n.natAbs).all isDig)
        then none
        else some (-(decVal (natChars n.natAbs) : Int))) = some n
    rw [hisEmpty, hall]
    simp only [Bool.not_true, Bool.or_false, if_false]
    rw [decVal_natChars]
    have hval : -(n.natAbs : Int) = n := by omega
    rw [hval]
    rfl
  · obtain ⟨c, cs, hco⟩ := List.exists_cons_of_ne_nil (natChars_ne_nil n.natAbs)
    have hcd : isDig c = true := by
      apply natChars_all_digits n.natAbs
      rw [hco]
      simp
    have hds : intChars n = c :: cs := by
      rw [intChars, if_neg hn, hco]
    rw [show intStr n = ⟨c :: cs⟩ from congrArg String.mk hds]
    have hmatch : (match (⟨c :: cs⟩ : String).data with
        | '-' :: r => ((true : Bool), r)
        | '+' :: r => ((false : Bool), r)
        | r => ((false : Bool), r)) = ((false : Bool), c :: cs) := by
      show (match c :: cs with
        | '-' :: r => ((true : Bool), r)
        | '+' :: r => ((false : Bool), r)
        | r => ((false : Bool), r)) = ((false : Bool), c :: cs)
      split
      · rename_i r heq
        injection heq with h1 h2
        rw [h1] at hcd
        exact absurd hcd (by decide)
      · rename_i r heq
        injection heq with h1 h2
        rw [h1] at hcd
        exact absurd hcd (by decide)
      · rfl
    unfold pyIntParse
    rw [hmatch]
    show (if (c :: cs).isEmpty || !((c :: cs).all isDig) then none
        else some ((decVal (c :: cs) : Nat) : Int)) = some n
    rw [← hco, hisEmpty, hall]
    simp only [Bool.not_true, Bool.or_false, if_false]
    rw [decVal_natChars]
    have hval : ((n.natAbs : Nat) : Int) = n := by omega
    rw [hval]
    rfl

/-! ## Conformant records serialize, and validation inverts `dict()` -/

theorem lookupRV_some_mem (n : String) (kvs : PyKVs) (v : PyVal)
    (h : lookupRV n kvs = some v) : n ∈ kvNames kvs := by
  match kvs with
  | .nil => exact absurd h (by simp [lookupRV])
  | .cons k v0 rest =>
    by_cases hk : k = n
    · simp [kvNames, hk]
    · simp only [lookupRV, if_neg hk] at h
      simp [kvNames, lookupRV_some_mem n rest v h]

theorem conf_names (sc : SchemaL) (fs : PyKVs) (h : confFields sc fs = true) :
    schemaNames sc = kvNames fs := by
  match sc, fs with
  | .nil, .nil => rfl
  | .nil, .cons .. => simp [confFields] at h
  | .cons .., .nil => simp [confFields] at h
  | .cons n t d rest, .cons n2 v fs' =>
    simp only [confFields, Bool.and_eq_true, beq_iff_eq] at h
    obtain ⟨⟨⟨hn, h2⟩, h3⟩, hrest⟩ := h
    subst hn
    simp [schemaNames, kvNames, conf_names rest fs' hrest]

/-- An undeclared key in the keyword dict is ignored by validation
(pydantic v1 default config). -/
theorem validateFields_skip (sc : SchemaL) (n0 : String) (v0 : PyVal)
    (kvs : PyKVs) (h : n0 ∉ schemaNames sc) :
    validateFields sc (.cons n0 v0 kvs) = validateFields sc kvs := by
  match sc with
  | .nil => rw [validateFields_nil, validateFields_nil]
  | .cons name t d rest =>
    have hne : n0 ≠ name := by
      intro he
      exact h (by simp [schemaNames, he])
    have h' : n0 ∉ schemaNames rest := by
      intro hm
      exact h (by simp [schemaNames, hm])
    rw [validateFields_cons, validateFields_cons,
      validateFields_skip rest n0 v0 kvs h',
      show lookupRV name (.cons n0 v0 kvs) = lookupRV name kvs from by
        simp [lookupRV, hne]]

theorem validate_tInt_vStr (s : String) :
    validate .tInt (.vStr s)
      = match pyIntParse s with
        | some n => .ok (.vInt n)
        | none => .error .invalid := rfl

mutual

theorem confT_ser (t : FieldType) (v : PyVal) (hconf : confT t v = true) :
    canonV v = true ∧ ∃ out, dumpsV v = .ok out := by
  unfold confT at hconf
  split at hconf
  · rename_i s
    exact ⟨rfl, ⟨quoteChars s, rfl⟩⟩
  · rename_i n
    exact ⟨rfl, ⟨intChars n, rfl⟩⟩
  · rename_i f
    exact ⟨hconf, ⟨fltChars f, rfl⟩⟩
  · rename_i sub fs
    obtain ⟨hcanon, parts, hdp⟩ := confFields_ser sub fs hconf
    refine ⟨hcanon, ⟨'{' :: (joinComma parts ++ ['}']), ?_⟩⟩
    simp only [dumpsV, hdp]
    rfl
  · rename_i t2 vs
    obtain ⟨hcanon, parts, hdp⟩ := confL_ser t2 vs hconf
    refine ⟨hcanon, ⟨'[' :: (joinComma parts ++ [']']), ?_⟩⟩
    simp only [dumpsV, hdp]
    rfl
  · rename_i t2 kvs
    obtain ⟨hcanon, parts, hdp⟩ := confKV_ser t2 kvs hconf
    refine ⟨hcanon, ⟨'{' :: (joinComma parts ++ ['}']), ?_⟩⟩
    simp only [dumpsV, hdp]
    rfl
  · simp at hconf
termination_by szFT t + szPV v
decreasing_by all_goals (subst_vars; simp [szFT, szPV, szS, szKV, szPL]; try omega)

theorem confFields_ser (sc : SchemaL) (fs : PyKVs)
    (hconf : confFields sc fs = true) :
    canonKV fs = true ∧ ∃ parts, dumpsKV fs = .ok parts := by
  unfold confFields at hconf
  split at hconf
  · exact ⟨rfl, ⟨[], rfl⟩⟩
  · rename_i n t d rest n2 v fs'
    simp only [Bool.and_eq_true] at hconf
    obtain ⟨⟨⟨hn, hfresh⟩, hcv⟩, hrest⟩ := hconf
    obtain ⟨hc1, p, hp⟩ := confT_ser t v hcv
    obtain ⟨hc2, ps, hps⟩ := confFields_ser rest fs' hrest
    refine ⟨by simp [canonKV, hc1, hc2],
      ⟨(quoteChars n2 ++ ':' :: ' ' :: p) :: ps, ?_⟩⟩
    simp only [dumpsKV, hp, hps]
    rfl
  · simp at hconf
termination_by szS sc + szKV fs
decreasing_by all_goals (subst_vars; simp [szFT, szPV, szS, szKV, szPL]; try omega)

theorem confL_ser (t : FieldType) (vs : PyList) (hconf : confL t vs = true) :
    canonL vs = true ∧ ∃ parts, dumpsL vs = .ok parts := by
  cases vs with
  | nil => exact ⟨rfl, ⟨[], rfl⟩⟩
  | cons v vs' =>
    simp only [confL, Bool.and_eq_true] at hconf
    obtain ⟨hcv, hrest⟩ := hconf
    obtain ⟨hc1, p, hp⟩ := confT_ser t v hcv
    obtain ⟨hc2, ps, hps⟩ := confL_ser t vs' hrest
    refine ⟨by simp [canonL, hc1, hc2], ⟨p :: ps, ?_⟩⟩
    simp only [dumpsL, hp, hps]
    rfl
termination_by szFT t + szPL vs
decreasing_by all_goals (subst_vars; simp [szFT, szPV, szS, szKV, szPL]; try omega)

theorem confKV_ser (t : FieldType) (kvs : PyKVs) (hconf : confKV t kvs = true) :
    canonKV kvs = true ∧ ∃ parts, dumpsKV kvs = .ok parts := by
  cases kvs with
  | nil => exact ⟨rfl, ⟨[], rfl⟩⟩
  | cons k v kvs' =>
    simp only [confKV, Bool.and_eq_true] at hconf
    obtain ⟨hcv, hrest⟩ := hconf
    obtain ⟨hc1, p, hp⟩ := confT_ser t v hcv
    obtain ⟨hc2, ps, hps⟩ := confKV_ser t kvs' hrest
    refine ⟨by simp [canonKV, hc1, hc2],
      ⟨(quoteChars k ++ ':' :: ' ' :: p) :: ps, ?_⟩⟩
    simp only [dumpsKV, hp, hps]
    rfl
termination_by szFT t + szKV kvs
decreasing_by all_goals (subst_vars; simp [szFT, szPV, szS, szKV, szPL]; try omega)

end

theorem serialize_ok_of_conf (name : String) (t : FieldType) (v : PyVal)
    (hconf : confT t v = true) :
    ∃ s, serialize .json name v = .ok (extKey name, s) := by
  unfold confT at hconf
  split at hconf
  · rename_i s
    exact ⟨s, rfl⟩
  · rename_i n
    exact ⟨intStr n, rfl⟩
  · rename_i f
    exact ⟨fltStr f, rfl⟩
  · rename_i sub fs
    obtain ⟨hcanon, parts, hdp⟩ := confFields_ser sub fs hconf
    refine ⟨⟨'{' :: (joinComma parts ++ ['}'])⟩, ?_⟩
    have hbd : backendDumps .json (.vModel fs)
        = .ok ⟨'{' :: (joinComma parts ++ ['}'])⟩ := by
      show jsonDumps (.vModel fs) = _
      rw [jsonDumps]
      simp only [dumpsV, hdp]
      rfl
    simp [serialize, hbd]
  · rename_i t2 vs
    obtain ⟨hcanon, parts, hdp⟩ := confL_ser t2 vs hconf
    refine ⟨⟨'[' :: (joinComma parts ++ [']'])⟩, ?_⟩
    have hbd : backendDumps .json (.vList vs)
        = .ok ⟨'[' :: (joinComma parts ++ [']'])⟩ := by
      show jsonDumps (.vList vs) = _
      rw [jsonDumps]
      simp only [dumpsV, hdp]
      rfl
    simp [serialize, hbd]
  · rename_i t2 kvs
    obtain ⟨hcanon, parts, hdp⟩ := confKV_ser t2 kvs hconf
    refine ⟨⟨'{' :: (joinComma parts ++ ['}'])⟩, ?_⟩
    have hbd : backendDumps .json (.vDict kvs)
        = .ok ⟨'{' :: (joinComma parts ++ ['}'])⟩ := by
      show jsonDumps (.vDict kvs) = _
      rw [jsonDumps]
      simp only [dumpsV, hdp]
      rfl
    simp [serialize, hbd]
  · simp at hconf

theorem conf_allSer (sc : SchemaL) (fs : PyKVs)
    (hconf : confFields sc fs = true) : allSer .json fs = true := by
  match sc, fs with
  | .nil, .nil => rfl
  | .nil, .cons .. => simp [confFields] at hconf
  | .cons .., .nil => simp [confFields] at hconf
  | .cons n t d rest, .cons n2 v fs' =>
    simp only [confFields, Bool.and_eq_true] at hconf
    obtain ⟨⟨⟨hn, hfresh⟩, hcv⟩, hrest⟩ := hconf
    obtain ⟨s, hs⟩ := serialize_ok_of_conf n2 t v hcv
    simp [allSer, hs, Except.isOk, Except.toBool, conf_allSer rest fs' hrest]

mutual

theorem validate_conf (t : FieldType) (v : PyVal) (hconf : confT t v = true) :
    validate t (toDictV v) = .ok v := by
  unfold confT at hconf
  split at hconf
  · rfl
  · rfl
  · rfl
  · rename_i sub fs
    show validate (.tModel sub) (.vDict (toDictKV fs)) = .ok (.vModel fs)
    rw [validate_tModel_vDict, validateFields_conf sub fs hconf]
  · rename_i t2 vs
    show validate (.tList t2) (.vList (toDictL vs)) = .ok (.vList vs)
    rw [validate_tList_vList, validateList_conf t2 vs hconf]
  · rename_i t2 kvs
    show validate (.tDict t2) (.vDict (toDictKV kvs)) = .ok (.vDict kvs)
    rw [validate_tDict_vDict, validateKV_conf t2 kvs hconf]
  · simp at hconf
termination_by szFT t + szPV v
decreasing_by all_goals (subst_vars; simp [szFT, szPV, szS, szKV, szPL]; try omega)

theorem validateFields_conf (sc : SchemaL) (fs : PyKVs)
    (hconf : confFields sc fs = true) :
    validateFields sc (toDictKV fs) = ([], fs) := by
  unfold confFields at hconf
  split at hconf
  · exact validateFields_nil _
  · rename_i n t d rest n2 v fs'
    simp only [Bool.and_eq_true, beq_iff_eq, Bool.not_eq_true'] at hconf
    obtain ⟨⟨⟨hn, hfresh⟩, hcv⟩, hrest⟩ := hconf
    subst hn
    show validateFields (.cons n t d rest) (.cons n (toDictV v) (toDictKV fs'))
      = ([], .cons n v fs')
    rw [validateFields_cons,
      validateFields_skip rest n (toDictV v) (toDictKV fs')
        (by rw [conf_names rest fs' hrest]; simpa using hfresh),
      validateFields_conf rest fs' hrest]
    simp [lookupRV, validate_conf t v hcv]
  · simp at hconf
termination_by szS sc + szKV fs
decreasing_by all_goals (subst_vars; simp [szFT, szPV, szS, szKV, szPL]; try omega)

theorem validateList_conf (t : FieldType) (vs : PyList)
    (hconf : confL t vs = true) : validateList t (toDictL vs) = .ok vs := by
  cases vs with
  | nil => exact validateList_nil t
  | cons v vs' =>
    simp only [confL, Bool.and_eq_true] at hconf
    obtain ⟨hcv, hrest⟩ := hconf
    show validateList t (.cons (toDictV v) (toDictL vs')) = .ok (.cons v vs')
    rw [validateList_cons, validate_conf t v hcv, validateList_conf t vs' hrest]
    rfl
termination_by szFT t + szPL vs
decreasing_by all_goals (subst_vars; simp [szFT, szPV, szS, szKV, szPL]; try omega)

theorem validateKV_conf (t : FieldType) (kvs : PyKVs)
    (hconf : confKV t kvs = true) :
    validateDictVals t (toDictKV kvs) = .ok kvs := by
  cases kvs with
  | nil => exact validateDictVals_nil t
  | cons k v kvs' =>
    simp only [confKV, Bool.and_eq_true] at hconf
    obtain ⟨hcv, hrest⟩ := hconf
    show validateDictVals t (.cons k (toDictV v) (toDictKV kvs'))
      = .ok (.cons k v kvs')
    rw [validateDictVals_cons, validate_conf t v hcv, validateKV_conf t kvs' hrest]
    rfl
termination_by szFT t + szKV kvs
decreasing_by all_goals (subst_vars; simp [szFT, szPV, szS, szKV, szPL]; try omega)

end

/-- For a conformant field value, the raw bag string `serialize` produced
decodes (bare for `str`/`int` annotations, through the json backend
otherwise) to a keyword value that validation coerces back to the original
value. -/
theorem conf_kwarg (t : FieldType) (v : PyVal) (name s : String)
    (hconf : confT t v = true)
    (hser : serialize .json name v = .ok (extKey name, s)) :
    ∃ w, (if bareAnn t = true then some (.vStr s) else jsonLoads s) = some w
      ∧ validate t w = .ok v := by
  unfold confT at hconf
  split at hconf
  · rename_i s0
    simp only [serialize, Except.ok.injEq, Prod.mk.injEq] at hser
    obtain ⟨h1, hs⟩ := hser
    subst hs
    exact ⟨.vStr s0, rfl, rfl⟩
  · rename_i n
    simp only [serialize, Except.ok.injEq, Prod.mk.injEq] at hser
    obtain ⟨h1, hs⟩ := hser
    subst hs
    refine ⟨.vStr (intStr n), rfl, ?_⟩
    rw [validate_tInt_vStr, pyIntParse_intStr]
  · rename_i f
    simp only [serialize, Except.ok.injEq, Prod.mk.injEq] at hser
    obtain ⟨h1, hs⟩ := hser
    subst hs
    refine ⟨.vFloat f, ?_, rfl⟩
    rw [if_neg (by simp [ bareAnn])]
    exact jsonLoads_jsonDumps (.vFloat f) (fltStr f) hconf rfl
  · rename_i sub fs
    cases hbd : backendDumps .json (.vModel fs) with
    | error m =>
      simp only [serialize, hbd] at hser
      exact Except.noConfusion hser
    | ok s2 =>
      simp only [serialize, hbd, Except.ok.injEq, Prod.mk.injEq] at hser
      obtain ⟨h1, hs⟩ := hser
      subst hs
      refine ⟨.vDict (toDictKV fs), ?_, ?_⟩
      · rw [if_neg (by simp [ bareAnn])]
        exact jsonLoads_jsonDumps (.vModel fs) s2 (confFields_ser sub fs hconf).1 hbd
      · rw [validate_tModel_vDict, validateFields_conf sub fs hconf]
  · rename_i t2 vs
    cases hbd : backendDumps .json (.vList vs) with
    | error m =>
      simp only [serialize, hbd] at hser
      exact Except.noConfusion hser
    | ok s2 =>
      simp only [serialize, hbd, Except.ok.injEq, Prod.mk.injEq] at hser
      obtain ⟨h1, hs⟩ := hser
      subst hs
      refine ⟨.vList (toDictL vs), ?_, ?_⟩
      · rw [if_neg (by simp [ bareAnn])]
        exact jsonLoads_jsonDumps (.vList vs) s2 (confL_ser t2 vs hconf).1 hbd
      · rw [validate_tList_vList, validateList_conf t2 vs hconf]
  · rename_i t2 kvs
    cases hbd : backendDumps .json (.vDict kvs) with
    | error m =>
      simp only [serialize, hbd] at hser
      exact Except.noConfusion hser
    | ok s2 =>
      simp only [serialize, hbd, Except.ok.injEq, Prod.mk.injEq] at hser
      obtain ⟨h1, hs⟩ := hser
      subst hs
      refine ⟨.vDict (toDictKV kvs), ?_, ?_⟩
      · rw [if_neg (by simp [ bareAnn])]
        exact jsonLoads_jsonDumps (.vDict kvs) s2 (confKV_ser t2 kvs hconf).1 hbd
      · rw [validate_tDict_vDict, validateKV_conf t2 kvs hconf]
  · simp at hconf

/-- If every declared field's serialized string is in the bag, `read`'s
keyword dict builds successfully and validation reproduces the record's
field map exactly. -/
theorem roundTrip_fields (sc : Schema) (fs : PyKVs) (bag : Bag)
    (hconf : confFields sc fs = true)
    (hlook : ∀ name v, lookupRV name fs = some v →
        ∃ s, serialize .json name v = .ok (extKey name, s) ∧
          lookupBag (extKey name) bag = some s) :
    ∃ kw, buildKwargs .json sc bag = .ok kw ∧ validateFields sc kw = ([], fs) := by
  match sc, fs with
  | .nil, .nil => exact ⟨.nil, rfl, validateFields_nil _⟩
  | .nil, .cons .. => simp [confFields] at hconf
  | .cons .., .nil => simp [confFields] at hconf
  | .cons name t d rest, .cons n2 v fs' =>
    simp only [confFields, Bool.and_eq_true, beq_iff_eq, Bool.not_eq_true']
      at hconf
    obtain ⟨⟨⟨hn, hfresh⟩, hcv⟩, hrest⟩ := hconf
    subst hn
    have hnotmem : name ∉ kvNames fs' := by simpa using hfresh
    obtain ⟨s, hser, hbag⟩ := hlook name v (by simp [lookupRV])
    have hlook2 : ∀ name2 v2, lookupRV name2 fs' = some v2 →
        ∃ s2, serialize .json name2 v2 = .ok (extKey name2, s2) ∧
          lookupBag (extKey name2) bag = some s2 := by
      intro n3 v3 h3
      apply hlook
      have hmem := lookupRV_some_mem n3 fs' v3 h3
      have hne : name ≠ n3 := fun he => absurd hmem (he ▸ hnotmem)
      simp only [lookupRV, if_neg hne]
      exact h3
    obtain ⟨kw2, hbk2, hvf2⟩ := roundTrip_fields rest fs' bag hrest hlook2
    obtain ⟨w, hw, hval⟩ := conf_kwarg t v name s hcv hser
    have hfresh2 : name ∉ schemaNames rest := by
      rw [conf_names rest fs' hrest]
      exact hnotmem
    refine ⟨.cons name w kw2, ?_, ?_⟩
    · simp only [buildKwargs, hbag]
      by_cases hb : bareAnn t = true
      · rw [if_pos hb]
        rw [if_pos hb] at hw
        injection hw with hw
        subst hw
        rw [hbk2]
        rfl
      · rw [if_neg hb]
        rw [if_neg hb] at hw
        have hbl : backendLoads .json s = some w := hw
        rw [hbl, hbk2]
        rfl
    · rw [validateFields_cons,
        validateFields_skip rest name w kw2 hfresh2,
        hvf2]
      simp [lookupRV, hval]

/-- **C7**: round-trip.  For every record conforming to its declared
schema — all fields of scalar type (string, integer, float) or of nested
record / list / dict type — with distinct hyphen-free field names, writing
all fields into an empty bag via `bind` (which serializes each field)
raises nothing, and a subsequent `read` of that bag under the same json
backend reconstructs a record equal to the original, covering both the
scalar-only case and the nested record/collection case of the claim. -/
theorem bind_read_roundtrip (sc : Schema) (r : PyKVs)
    (hconf : confFields sc r = true)
    (hnd : (kvNames r).Nodup)
    (hh : ∀ n ∈ kvNames r, '-' ∉ n.data) :
    (bindBag .json ⟨r, false⟩ []).2.2 = none ∧
    read sc .json (bindBag .json ⟨r, false⟩ []).2.1 = .ok r := by
  obtain ⟨herr, hlook⟩ := writeAll_lookup .json r [] (conf_allSer sc r hconf) hnd hh
  obtain ⟨kw, hbk, hvf⟩ := roundTrip_fields sc r (writeAll .json r []).1 hconf hlook
  constructor
  · show (writeAll .json r []).2 = none
    exact herr
  · show read sc .json (writeAll .json r []).1 = .ok r
    rw [read_eq_of_kwargs sc .json _ kw hbk, hvf]

theorem bind_read_roundtrip_witness :
    confFields
      (SchemaL.cons "my_key" .tFloat .none
        (.cons "complex_property"
          (.tList (.tModel (.cons "subkey" .tStr .none .nil))) .none .nil))
      (PyKVs.cons "my_key" (.vFloat ⟨42, 0⟩)
        (.cons "complex_property"
          (.vList (.cons (.vModel (.cons "subkey" (.vStr "enrico") .nil)) .nil))
          .nil)) = true ∧
    read
      (SchemaL.cons "my_key" .tFloat .none
        (.cons "complex_property"
          (.tList (.tModel (.cons "subkey" .tStr .none .nil))) .none .nil))
      .json
      (bindBag .json
        (⟨PyKVs.cons "my_key" (.vFloat ⟨42, 0⟩)
          (.cons "complex_property"
            (.vList (.cons (.vModel (.cons "subkey" (.vStr "enrico") .nil)) .nil))
            .nil), false⟩) []).2.1
      = .ok (PyKVs.cons "my_key" (.vFloat ⟨42, 0⟩)
          (.cons "complex_property"
            (.vList (.cons (.vModel (.cons "subkey" (.vStr "enrico") .nil)) .nil))
            .nil)) :=
  ⟨by simp [confFields, confT, confL, confKV, Flt.canon, kvNames],
    (bind_read_roundtrip
      (SchemaL.cons "my_key" .tFloat .none
        (.cons "complex_property"
          (.tList (.tModel (.cons "subkey" .tStr .none .nil))) .none .nil))
      (PyKVs.cons "my_key" (.vFloat ⟨42, 0⟩)
        (.cons "complex_property"
          (.vList (.cons (.vModel (.cons "subkey" (.vStr "enrico") .nil)) .nil))
          .nil))
      (by simp [confFields, confT, confL, confKV, Flt.canon, kvNames])
      (by decide) (by decide)).2⟩

end Relations
